import Mathlib

/-!
Verification of the CMS website-analysis pipeline (crawler + RFP analysis
service) against its natural-language specification.  Python strings are
modelled as `List Char` (sequences of code points), Python dicts keyed by
strings as association lists with first-match update, and Python sets as
`Finset`/deduplicated lists.  External effects (network, browser, the
language-model endpoint) are abstracted: fetch results and model responses
enter the definitions as explicit parameters.
-/

namespace Crawler

/-- Whitespace characters recognised by Python's `str.strip` / regex `\s`
(ASCII subset). -/
def pyWs (c : Char) : Bool :=
  c = ' ' || c = '\t' || c = '\n' || c = '\r' || c = '\x0b' || c = '\x0c'

/-- `splitCh sep s` models Python `s.split(sep)` for a one-character
separator: the list of (possibly empty) chunks between separators. -/
def splitCh (sep : Char) : List Char → List (List Char)
  | [] => [[]]
  | c :: r =>
    if c = sep then [] :: splitCh sep r
    else
      match splitCh sep r with
      | [] => [[c]]
      | h :: t => (c :: h) :: t

/-- A URL as seen after `urllib.parse.urlparse`: we keep the two fields the
crawler reads (`netloc` and `path`). -/
structure Url where
  netloc : String
  path : String
deriving DecidableEq, Repr

/-- Python `s.strip("/")` on a character list. -/
def stripSlashes (s : List Char) : List Char :=
  ((s.dropWhile (· = '/')).reverse.dropWhile (· = '/')).reverse

/-- Hex digit test used by the UUID shape check (`[0-9a-fA-F]`). -/
def isHexChar (c : Char) : Bool :=
  c.isDigit || ('a' ≤ c && c ≤ 'f') || ('A' ≤ c && c ≤ 'F')

/-- The regex `^[0-9a-fA-F]{8}-[0-9a-fA-F]{4}-[0-9a-fA-F]{4}-[0-9a-fA-F]{4}-[0-9a-fA-F]{12}$`. -/
def isUuidSeg (s : List Char) : Bool :=
  match (splitCh '-' s).map (fun p => (p.length, p.all isHexChar)) with
  | [(8, true), (4, true), (4, true), (4, true), (12, true)] => true
  | _ => false

/-- Python `s.isdigit()` restricted to ASCII digits (segments are non-empty). -/
def isDigitSeg (s : List Char) : Bool :=
  !s.isEmpty && s.all Char.isDigit

/-- The regex `^\d{4}-\d{2}(-\d{2})?$`. -/
def isDateSeg (s : List Char) : Bool :=
  match (splitCh '-' s).map (fun p => (p.length, p.all Char.isDigit)) with
  | [(4, true), (2, true)] => true
  | [(4, true), (2, true), (2, true)] => true
  | _ => false

/-- The regex `^[a-zA-Z0-9]{8,}$` together with the mixed alpha/digit test. -/
def isAlphaIdSeg (s : List Char) : Bool :=
  8 ≤ s.length && s.all (fun c => c.isAlpha || c.isDigit)
    && s.any Char.isDigit && s.any Char.isAlpha

/-- Python `s.isalnum()` (ASCII approximation, segments non-empty). -/
def isAlnumSeg (s : List Char) : Bool :=
  !s.isEmpty && s.all (fun c => c.isAlpha || c.isDigit)

/-- The fixed allow-list of common static page names in `_normalize_pattern`. -/
def staticPages : List (List Char) :=
  ["about".data, "contact".data, "services".data, "products".data, "blog".data,
   "news".data, "team".data, "pricing".data, "faq".data, "help".data,
   "support".data, "careers".data, "index".data, "home".data, "portfolio".data,
   "gallery".data, "events".data]

def lowerSeg (s : List Char) : List Char := s.map Char.toLower

/-- Segment classifier of `_normalize_pattern` (crawler.py lines 38-100):
one path segment is mapped to a placeholder or kept (lower-cased), the
branches tried in the source's order.  `isLast` says whether the segment is
the final one of the path. -/
def classifySeg (s : List Char) (isLast : Bool) : List Char :=
  if isDigitSeg s then ":id".data
  else if isUuidSeg s then ":uuid".data
  else if s.length = 4 && s.all Char.isDigit then ":year".data
  else if isDateSeg s then ":date".data
  else if s.length = 2 && s.all Char.isDigit then
    (let num := 10 * ((s.headD '0').toNat - '0'.toNat) + ((s.getLastD '0').toNat - '0'.toNat)
     if 1 ≤ num && num ≤ 12 then ":month".data
     else if 13 ≤ num && num ≤ 31 then ":day".data
     else ":id".data)
  else if isAlphaIdSeg s then ":alphaid".data
  else if s.contains '-' || s.contains '_' then
    (if isLast && 15 < s.length then ":slug".data
     else if !isLast && s.length ≤ 25 then lowerSeg s
     else if isLast then ":slug".data
     else lowerSeg s)
  else if 30 < s.length then ":slug".data
  else if !isLast && s.length ≤ 20 && isAlnumSeg s then lowerSeg s
  else if isLast && s.length ≤ 20 && isAlnumSeg s then
    (if staticPages.contains (lowerSeg s) then lowerSeg s else ":slug".data)
  else lowerSeg s

/-- `_normalize_pattern` (crawler.py lines 18-107): normalize a URL path to a
page-type pattern; returns `""` for a foreign host. -/
def normalize_pattern (u : Url) (base_netloc : String) : String :=
  if u.netloc ≠ base_netloc then ""
  else
    let segments := ((splitCh '/' (stripSlashes u.path.data)).filter (!·.isEmpty))
    if segments.isEmpty then "/"
    else
      let n := segments.length
      let norm := (segments.enum).map (fun p => classifySeg p.2 (p.1 + 1 = n))
      String.mk ('/' :: (List.intercalate ['/'] norm))

/-- Python `pat in s` (substring containment), non-overlapping scan. -/
def hasSub (s pat : List Char) : Bool :=
  if pat.isPrefixOf s then true
  else
    match s with
    | [] => false
    | _ :: t => hasSub t pat

/-- Python `html.count('<script')`: number of non-overlapping occurrences of
the literal `<script`. -/
def countScript : List Char → Nat
  | '<' :: 's' :: 'c' :: 'r' :: 'i' :: 'p' :: 't' :: r => 1 + countScript r
  | _ :: r => countScript r
  | [] => 0

/-- The SPA marker substrings listed in `_looks_like_spa` (crawler.py 118-121). -/
def spaMarkers : List (List Char) :=
  ["id=\"root\"".data, "id=\"app\"".data, "data-reactroot".data, "__NEXT_DATA__".data,
   "window.__INITIAL".data, "ng-app".data, "id=\"__nuxt\"".data, "data-v-app".data]

/-- `_looks_like_spa` (crawler.py lines 110-128): decide whether a statically
fetched page needs the rendered-browser fallback. -/
def looks_like_spa (html : List Char) (text_len : Nat) : Bool :=
  if text_len < 300 then
    if spaMarkers.any (fun m => hasSub html m) then true
    else
      let script_count := countScript html
      if 8 ≤ script_count then true else false
  else false

/-- Loop body of `_representative_urls_from_given_sitemap` (crawler.py lines
234-245): walk the sitemap URLs keeping the first URL of each new pattern,
stopping once `max_types` patterns are collected.  `acc` is the
`patterns_to_url` dict as an insertion-ordered association list. -/
def repSelectGo (netloc : String) (max_types : Nat) :
    List Url → List (String × Url) → List (String × Url)
  | [], acc => acc
  | u :: rest, acc =>
    if netloc ≠ "" && u.netloc ≠ netloc then repSelectGo netloc max_types rest acc
    else
      let pattern := normalize_pattern u (if netloc = "" then u.netloc else netloc)
      if pattern = "" then repSelectGo netloc max_types rest acc
      else if (acc.map Prod.fst).contains pattern then repSelectGo netloc max_types rest acc
      else
        let acc' := acc ++ [(pattern, u)]
        if max_types ≤ acc'.length then acc'
        else repSelectGo netloc max_types rest acc'

/-- The effective host filter of `_representative_urls_from_given_sitemap`
(crawler.py lines 230-232): the sitemap URL's netloc, falling back to the
first extracted URL's netloc. -/
def effNetloc (sitemap_netloc : String) (urls : List Url) : String :=
  if sitemap_netloc = "" then
    match urls with
    | [] => ""
    | u :: _ => u.netloc
  else sitemap_netloc

/-- The pattern the selector computes for a URL
(`_normalize_pattern(u, netloc or parsed.netloc)`). -/
def patternOf (netloc : String) (u : Url) : String :=
  normalize_pattern u (if netloc = "" then u.netloc else netloc)

/-- `_representative_urls_from_given_sitemap` (crawler.py lines 225-247), with
the sitemap fetch abstracted into the `urls` argument; `sitemap_netloc` is
`urlparse(sitemap_url).netloc`.  Returns `list(patterns_to_url.values())`. -/
def representative_urls_from_given_sitemap (sitemap_netloc : String) (urls : List Url)
    (max_types : Nat) : List Url :=
  (repSelectGo (effNetloc sitemap_netloc urls) max_types urls []).map Prod.snd

/-- One step of `fetch` (crawler.py lines 307-311 and body): if the URL is in
the visited set no request happens and the result is absent (`none`);
otherwise the URL is added to `visited` and the network fetch (abstracted as
`f`, `none` meaning HTTP failure or exception) is performed.  The
`asyncio`-scheduled tasks run the visited check-and-insert without any
intervening await, so the sequential model is faithful.  Returns the ordered
fetch results, the final visited set, and the list of URLs for which a
network request was actually performed. -/
def fetchLoop (f : String → Option String) :
    List String → List String → List (Option String) × List String × List String
  | [], visited => ([], visited, [])
  | u :: rest, visited =>
    if u ∈ visited then
      let (rs, v', p) := fetchLoop f rest visited
      (none :: rs, v', p)
    else
      let (rs, v', p) := fetchLoop f rest (u :: visited)
      (f u :: rs, v', u :: p)

/-- Per-page cap applied by `fetch` before returning extracted text
(`text[:6000]`, crawler.py lines 338/373/374). -/
def pageCap (t : List Char) : List Char := t.take 6000

/-- Corpus assembly of `crawl_website` (crawler.py line 400):
`"\n".join(collected_text)[:20000]` over the per-page capped extracts. -/
def crawl_corpus (texts : List (List Char)) : List Char :=
  (List.intercalate ['\n'] texts).take 20000

/-- `crawl_website`'s corpus as a function of the raw per-page texts: each
page is capped at 6000 characters, the newline-join of all pages at 20000. -/
def crawl_corpus_from_raw (raws : List (List Char)) : List Char :=
  crawl_corpus (raws.map pageCap)

/-- Relation between the line decomposition of a prefix of a string and that
of the string itself: the initial lines agree and the final line of the
prefix is a prefix of the corresponding line. -/
inductive PrefixLines : List (List Char) → List (List Char) → Prop where
  | single {p y : List Char} {t : List (List Char)} : p <+: y → PrefixLines [p] (y :: t)
  | cons {y : List Char} {L t : List (List Char)} :
      PrefixLines L t → PrefixLines (y :: L) (y :: t)

end Crawler

namespace AiService

open Crawler (pyWs splitCh hasSub)

/-! ### RFP data model (ai_service.py result dictionaries) -/

/-- `overview` object of an RFP analysis result. -/
structure Overview where
  website_purpose : String
  industry : String
  overall_structure : String
  total_pages_analyzed : Int
deriving DecidableEq, Repr

/-- One `page_types[]` entry.  The last three fields are the summary fields
injected by `_annotate_components_and_page_types`; before annotation they
hold the defaults. -/
structure PageTypeEntry where
  name : String
  description : String
  example_urls : List String
  complexity : String
  count : Int
  components_all : String := ""
  components_reusable : String := ""
  component_count : Nat := 0
deriving DecidableEq, Repr

/-- One `components[]` entry.  `reusable = none` models the `"reusable"` key
being absent from the dictionary. -/
structure ComponentEntry where
  name : String
  found_on_urls : List String
  reusable : Option String := none
deriving DecidableEq, Repr

/-- One `pages[]` entry. -/
structure PageEntry where
  url : String
  page_type : String
  components : List String
deriving DecidableEq, Repr

/-- One `third_party_integrations[]` entry. -/
structure IntegrationEntry where
  name : String
  detected_on_urls : List String
deriving DecidableEq, Repr

/-- A (possibly partial) RFP analysis document. -/
structure Rfp where
  overview : Overview
  page_types : List PageTypeEntry
  components : List ComponentEntry
  pages : List PageEntry
  third_party_integrations : List IntegrationEntry
  recommendations : List String
deriving DecidableEq, Repr

/-- Model of the empty dict `{}` returned by `_merge_rfp_batches([])`. -/
def emptyRfp : Rfp :=
  { overview := ⟨"", "", "", 0⟩, page_types := [], components := [], pages := [],
    third_party_integrations := [], recommendations := [] }

/-! ### `_merge_rfp_batches` (ai_service.py lines 164-244) -/

/-- Dict insert-or-aggregate for `pt_map` (lines 193-204): on a name hit the
`count` is summed and up to 3 new deduplicated example URLs are appended;
otherwise the entry is appended. -/
def upsertPageType : List PageTypeEntry → PageTypeEntry → List PageTypeEntry
  | [], pt => [pt]
  | e :: rest, pt =>
    if e.name = pt.name then
      { e with
        count := e.count + pt.count,
        example_urls :=
          e.example_urls ++ (pt.example_urls.filter (fun u => !e.example_urls.contains u)).take 3 }
        :: rest
    else e :: upsertPageType rest pt

/-- Dict insert-or-merge for `comp_map` (lines 209-219): `found_on_urls` is
extended with deduplicated new URLs. -/
def upsertComponent : List ComponentEntry → ComponentEntry → List ComponentEntry
  | [], c => [c]
  | e :: rest, c =>
    if e.name = c.name then
      { e with found_on_urls :=
          e.found_on_urls ++ c.found_on_urls.filter (fun u => !e.found_on_urls.contains u) }
        :: rest
    else e :: upsertComponent rest c

/-- Dict insert-or-merge for `int_map` (lines 224-233). -/
def upsertIntegration : List IntegrationEntry → IntegrationEntry → List IntegrationEntry
  | [], c => [c]
  | e :: rest, c =>
    if e.name = c.name then
      { e with detected_on_urls :=
          e.detected_on_urls ++ c.detected_on_urls.filter (fun u => !e.detected_on_urls.contains u) }
        :: rest
    else e :: upsertIntegration rest c

/-- `_merge_rfp_batches` (ai_service.py lines 164-244).  `recommendations`
are accumulated through a Python `set`, whose iteration order is
implementation-defined; we model it by order-preserving deduplication. -/
def merge_rfp_batches : List Rfp → Rfp
  | [] => emptyRfp
  | [b] => b
  | b0 :: b1 :: bs =>
    let batches := b0 :: b1 :: bs
    let pages := batches.foldl (fun acc b => acc ++ b.pages) []
    let page_types := batches.foldl (fun m b => b.page_types.foldl upsertPageType m) []
    let components := batches.foldl (fun m b => b.components.foldl upsertComponent m) []
    let integrations :=
      batches.foldl (fun m b => b.third_party_integrations.foldl upsertIntegration m) []
    let recommendations := (batches.foldl (fun acc b => acc ++ b.recommendations) []).dedup
    { overview := { b0.overview with total_pages_analyzed := (pages.length : Int) },
      page_types := page_types, components := components, pages := pages,
      third_party_integrations := integrations, recommendations := recommendations }

/-! ### `_annotate_components_and_page_types` (ai_service.py lines 590-672) -/

/-- Python `s.strip()`: drop leading and trailing whitespace. -/
def pyStrip (s : String) : String :=
  String.mk (((s.data.dropWhile Crawler.pyWs).reverse.dropWhile Crawler.pyWs).reverse)

/-- `(p.get("page_type") or "Unknown").strip() or "Unknown"`. -/
def pageTypeOfPage (p : PageEntry) : String :=
  let s := pyStrip p.page_type
  if s = "" then "Unknown" else s

/-- The stripped, non-empty component names of one page (lines 611-616). -/
def pageComps (p : PageEntry) : List String :=
  (p.components.map pyStrip).filter (fun s => s ≠ "")

/-- `comp_to_page_types[cname]` as built from the `pages` loop alone
(lines 606-618), i.e. the state in which the `reusable` flags are computed. -/
def compToPageTypes (pages : List PageEntry) (cname : String) : Finset String :=
  ((pages.filter (fun p => (pageComps p).contains cname)).map pageTypeOfPage).toFinset

/-- The component marking step (lines 624-627): each component gains
`reusable = "Yes"` iff its stripped name maps to more than one page type in
the pages-derived map. -/
def annotate_components (pages : List PageEntry) (comps : List ComponentEntry) :
    List ComponentEntry :=
  comps.map (fun c =>
    let flag : String := if 1 < (compToPageTypes pages (pyStrip c.name)).card then "Yes" else "No"
    { c with reusable := some flag })

/-- `url_to_pt` lookup (lines 619-621): the last page carrying a given
non-empty URL determines its page type. -/
def urlToPt (pages : List PageEntry) (u : String) : Option String :=
  if u = "" then none
  else (pages.reverse.find? (fun p => p.url = u)).map pageTypeOfPage

/-- `comp_to_page_types[cname]` after the fallback enrichment via
`found_on_urls` (lines 645-654). -/
def compToPageTypes₂ (pages : List PageEntry) (comps : List ComponentEntry)
    (cname : String) : Finset String :=
  compToPageTypes pages cname ∪
    (comps.filter (fun c => pyStrip c.name = cname)).foldl
      (fun acc c => acc ∪ (c.found_on_urls.filterMap (urlToPt pages)).toFinset) ∅

/-- `pt_to_components[pt]` after the fallback enrichment. -/
def ptToComps₂ (pages : List PageEntry) (comps : List ComponentEntry)
    (pt : String) : Finset String :=
  ((pages.filter (fun p => pageTypeOfPage p = pt)).foldl
      (fun acc p => acc ∪ (pageComps p).toFinset) ∅) ∪
    ((comps.filter (fun c => c.found_on_urls.any (fun u => urlToPt pages u = some pt))).map
        (fun c => pyStrip c.name)).toFinset

/-- Code-point lexicographic comparison (Python's string `<=`). -/
def lexLe : List Char → List Char → Bool
  | [], _ => true
  | _ :: _, [] => false
  | c :: cs, d :: ds =>
    if c.toNat < d.toNat then true
    else if d.toNat < c.toNat then false
    else lexLe cs ds

/-- Ascending insertion of a string into a sorted list (model of Python's
`sorted` on distinct or arbitrary string lists). -/
def insertSorted (a : String) : List String → List String
  | [] => [a]
  | b :: t => if lexLe a.data b.data then a :: b :: t else b :: insertSorted a t

/-- Python `sorted(...)` for lists of strings. -/
def sortStrings (l : List String) : List String := l.foldr insertSorted []

/-- Summary fields written into one page-type entry (lines 639-643 as
overwritten by lines 663-667, which use the enriched maps). -/
def applySummary (pages : List PageEntry) (comps : List ComponentEntry)
    (e : PageTypeEntry) (k : String) : PageTypeEntry :=
  let comp_list := Finset.sort (· ≤ ·) (ptToComps₂ pages comps k)
  let reusable_list := comp_list.filter (fun c => 1 < (compToPageTypes₂ pages comps c).card)
  { e with
    components_all := String.intercalate ", " comp_list,
    components_reusable := String.intercalate ", " (sortStrings reusable_list),
    component_count := comp_list.length }

/-- `pt.get("name") or "Unknown"` for an existing page-type entry. -/
def ptEntryName (e : PageTypeEntry) : String :=
  if e.name = "" then "Unknown" else e.name

/-- The page-types half of `_annotate_components_and_page_types`: existing
entries are updated in place through the `name_to_pt_obj` index (so only the
last entry with a given name is written), and a minimal entry is appended
for every page type seen on pages but absent from the list. -/
def annotate_page_types (pages : List PageEntry) (comps : List ComponentEntry)
    (page_types : List PageTypeEntry) : List PageTypeEntry :=
  let keys := (pages.map pageTypeOfPage).dedup
  let updated := page_types.enum.map (fun p =>
    if keys.contains (ptEntryName p.2)
        && (page_types.drop (p.1 + 1)).all (fun e' => ptEntryName e' ≠ ptEntryName p.2) then
      applySummary pages comps p.2 (ptEntryName p.2)
    else p.2)
  let appended := (keys.filter (fun k => page_types.all (fun e => ptEntryName e ≠ k))).map
    (fun k =>
      applySummary pages comps
        { name := k, description := "", example_urls := [], complexity := "", count := 0 } k)
  updated ++ appended

/-- `_annotate_components_and_page_types` on a whole document. -/
def annotate_rfp (d : Rfp) : Rfp :=
  { d with
    components := annotate_components d.pages d.components,
    page_types := annotate_page_types d.pages d.components d.page_types }

/-! ### JSON values, serialization, and a model of `json.loads`

`_safe_json_loads` repairs and parses model output with Python's `json`
module.  We embed JSON values (numbers restricted to integers), a serializer
following `json.dumps` (separators `", "`/`": "`, standard escapes, control
characters as `\u00XX`), and a recursive-descent parser modelling
`json.loads`. -/

inductive Json where
  | null : Json
  | bool (b : Bool) : Json
  | num (n : Int) : Json
  | str (s : List Char) : Json
  | arr (xs : List Json) : Json
  | obj (kvs : List (List Char × Json)) : Json

/-- Weight of a JSON value (used to bound the parser fuel). -/
def jsize : Json → Nat
  | .null | .bool _ | .num _ | .str _ => 1
  | .arr xs => 2 + (xs.attach.map (fun x => jsize x.1)).sum
  | .obj kvs => 2 + (kvs.attach.map (fun kv => jsize kv.1.2)).sum
termination_by j => sizeOf j
decreasing_by
  · have := List.sizeOf_lt_of_mem x.2
    simp [Json.arr.sizeOf_spec]
    omega
  · have h1 := List.sizeOf_lt_of_mem kv.2
    have h2 : sizeOf kv.1.2 < sizeOf kv.1 := by
      obtain ⟨a, b⟩ := kv.1
      simp
    simp [Json.obj.sizeOf_spec]
    omega

/-- JSON whitespace accepted by `json.loads` between tokens. -/
def jsonWs (c : Char) : Bool :=
  c = ' ' || c = '\t' || c = '\n' || c = '\r'

/-- Lower-case hex digit for `\u00XX` escapes. -/
def hexDigit (n : Nat) : Char :=
  if n < 10 then Char.ofNat ('0'.toNat + n) else Char.ofNat ('a'.toNat + n - 10)

/-- Serialization of one character inside a JSON string literal
(`json.dumps` escaping). -/
def escChar (c : Char) : List Char :=
  if c = '"' then ['\\', '"']
  else if c = '\\' then ['\\', '\\']
  else if c = '\n' then ['\\', 'n']
  else if c = '\t' then ['\\', 't']
  else if c = '\r' then ['\\', 'r']
  else if c = '\x08' then ['\\', 'b']
  else if c = '\x0c' then ['\\', 'f']
  else if c.toNat < 32 then
    ['\\', 'u', '0', '0', hexDigit (c.toNat / 16), hexDigit (c.toNat % 16)]
  else [c]

/-- Serialized JSON string literal. -/
def dumpStringLit (s : List Char) : List Char :=
  '"' :: ((s.map escChar).flatten ++ ['"'])

/-- Decimal digits of a natural number (fuelled; `natDigits` supplies enough
fuel for any input). -/
def natDigitsAux : Nat → Nat → List Char
  | 0, _ => []
  | fuel + 1, n =>
    if n < 10 then [Char.ofNat ('0'.toNat + n)]
    else natDigitsAux fuel (n / 10) ++ [Char.ofNat ('0'.toNat + n % 10)]

def natDigits (n : Nat) : List Char := natDigitsAux (n + 1) n

/-- Serialized JSON integer. -/
def intDump (i : Int) : List Char :=
  if i < 0 then '-' :: natDigits i.natAbs else natDigits i.natAbs

/-- The `", "` separator join used by `json.dumps` between members. -/
def joinComma (ls : List (List Char)) : List Char := List.intercalate (", ".data) ls

/-- `json.dumps` with default separators. -/
def dumpsVal : Json → List Char
  | .null => "null".data
  | .bool true => "true".data
  | .bool false => "false".data
  | .num i => intDump i
  | .str s => dumpStringLit s
  | .arr xs => '[' :: (joinComma (xs.attach.map (fun x => dumpsVal x.1)) ++ [']'])
  | .obj kvs => '{' :: (joinComma (kvs.attach.map
      (fun kv => dumpStringLit kv.1.1 ++ ':' :: ' ' :: dumpsVal kv.1.2)) ++ ['}'])
termination_by j => sizeOf j
decreasing_by
  · have := List.sizeOf_lt_of_mem x.2
    simp [Json.arr.sizeOf_spec]
    omega
  · have h1 := List.sizeOf_lt_of_mem kv.2
    have h2 : sizeOf kv.1.2 < sizeOf kv.1 := by
      obtain ⟨a, b⟩ := kv.1
      simp
    simp [Json.obj.sizeOf_spec]
    omega

/-- Value of a hex digit character. -/
def hexVal (c : Char) : Option Nat :=
  if '0' ≤ c ∧ c ≤ '9' then some (c.toNat - '0'.toNat)
  else if 'a' ≤ c ∧ c ≤ 'f' then some (c.toNat - 'a'.toNat + 10)
  else if 'A' ≤ c ∧ c ≤ 'F' then some (c.toNat - 'A'.toNat + 10)
  else none

/-- Single-character JSON string escapes. -/
def unescChar (c : Char) : Option Char :=
  if c = '"' then some '"'
  else if c = '\\' then some '\\'
  else if c = '/' then some '/'
  else if c = 'b' then some '\x08'
  else if c = 'f' then some '\x0c'
  else if c = 'n' then some '\n'
  else if c = 'r' then some '\r'
  else if c = 't' then some '\t'
  else none

/-- Parse the remainder of a JSON string literal (after the opening quote),
returning the decoded characters and the input after the closing quote.
Raw control characters are rejected, as in strict `json.loads`. -/
def parseStringRest : List Char → Option (List Char × List Char)
  | [] => none
  | c :: r =>
    if c = '"' then some ([], r)
    else if c = '\\' then
      match r with
      | [] => none
      | e :: r2 =>
        if e = 'u' then
          match r2 with
          | h1 :: h2 :: h3 :: h4 :: r3 =>
            match hexVal h1, hexVal h2, hexVal h3, hexVal h4 with
            | some a, some b, some c2, some d =>
              (parseStringRest r3).map
                (fun p => (Char.ofNat (4096 * a + 256 * b + 16 * c2 + d) :: p.1, p.2))
            | _, _, _, _ => none
          | _ => none
        else
          match unescChar e with
          | some d => (parseStringRest r2).map (fun p => (d :: p.1, p.2))
          | none => none
    else if c.toNat < 32 then none
    else (parseStringRest r).map (fun p => (c :: p.1, p.2))

/-- Fold decimal digit characters into a natural number. -/
def foldDigits (ds : List Char) : Nat :=
  ds.foldl (fun a c => 10 * a + (c.toNat - '0'.toNat)) 0

/-- Parse a JSON integer (optional minus sign, decimal digits). -/
def parseNumber (s : List Char) : Option (Json × List Char) :=
  if s.head? = some '-' then
    let r := s.tail
    let ds := r.takeWhile Char.isDigit
    if ds.isEmpty then none
    else some (.num (-(foldDigits ds : Int)), r.dropWhile Char.isDigit)
  else
    let ds := s.takeWhile Char.isDigit
    if ds.isEmpty then none
    else some (.num ((foldDigits ds : Int)), s.dropWhile Char.isDigit)

mutual

/-- Recursive-descent JSON value parse (fuelled). -/
def parseValue : Nat → List Char → Option (Json × List Char)
  | 0, _ => none
  | fuel + 1, s0 =>
    let s := s0.dropWhile jsonWs
    if "null".data.isPrefixOf s then some (.null, s.drop 4)
    else if "true".data.isPrefixOf s then some (.bool true, s.drop 4)
    else if "false".data.isPrefixOf s then some (.bool false, s.drop 5)
    else
      match s.head? with
      | none => none
      | some c =>
        if c = '"' then (parseStringRest s.tail).map (fun p => (Json.str p.1, p.2))
        else if c = '[' then (parseElems fuel s.tail).map (fun p => (Json.arr p.1, p.2))
        else if c = '{' then (parseMembers fuel s.tail).map (fun p => (Json.obj p.1, p.2))
        else if c = '-' || c.isDigit then parseNumber s
        else none

/-- Array elements after `[`. -/
def parseElems : Nat → List Char → Option (List Json × List Char)
  | 0, _ => none
  | fuel + 1, s0 =>
    let s := s0.dropWhile jsonWs
    if s.head? = some ']' then some ([], s.tail)
    else
      match parseValue fuel s with
      | none => none
      | some (v, r) =>
        let r1 := r.dropWhile jsonWs
        if r1.head? = some ',' then
          match parseElems fuel r1.tail with
          | none => none
          | some (vs, r3) => some (v :: vs, r3)
        else if r1.head? = some ']' then some ([v], r1.tail)
        else none

/-- Object members after `{`. -/
def parseMembers : Nat → List Char → Option (List (List Char × Json) × List Char)
  | 0, _ => none
  | fuel + 1, s0 =>
    let s := s0.dropWhile jsonWs
    if s.head? = some '}' then some ([], s.tail)
    else if s.head? = some '"' then
      match parseStringRest s.tail with
      | none => none
      | some (k, r1) =>
        let r2 := r1.dropWhile jsonWs
        if r2.head? = some ':' then
          match parseValue fuel r2.tail with
          | none => none
          | some (v, r3) =>
            let r4 := r3.dropWhile jsonWs
            if r4.head? = some ',' then
              match parseMembers fuel r4.tail with
              | none => none
              | some (kvs, r5) => some ((k, v) :: kvs, r5)
            else if r4.head? = some '}' then some ([(k, v)], r4.tail)
            else none
        else none
    else none

end

/-- `json.loads`: parse a complete document, allowing only trailing
whitespace. -/
def loads (s : List Char) : Option Json :=
  match parseValue (s.length + 1) s with
  | some (j, rest) => if (rest.dropWhile jsonWs).isEmpty then some j else none
  | none => none

/-! ### `_safe_json_loads` and its sanitizers (ai_service.py lines 23-114) -/

/-- List-level Python `str.strip()`. -/
def pyStripL (s : List Char) : List Char :=
  ((s.dropWhile Crawler.pyWs).reverse.dropWhile Crawler.pyWs).reverse

/-- The leading half of `_strip_code_fences`: the regex
`^\s*```(?:json)?` (case-insensitive) anchored at the start. -/
def stripLeadingFence (s : List Char) : List Char :=
  let r := s.dropWhile Crawler.pyWs
  if "```".data.isPrefixOf r then
    let r2 := r.drop 3
    if (r2.take 4).map Char.toLower = "json".data then r2.drop 4 else r2
  else s

def allPyWs (s : List Char) : Bool := s.all Crawler.pyWs

/-- The trailing half of `_strip_code_fences`: the regex ```` ```\s*$ ````,
replacing the leftmost occurrence of three backticks followed only by
whitespace with nothing. -/
def stripTrailingFence : List Char → List Char
  | [] => []
  | c :: rest =>
    if "```".data.isPrefixOf (c :: rest) && allPyWs ((c :: rest).drop 3) then []
    else c :: stripTrailingFence rest

/-- `_strip_code_fences` (ai_service.py lines 23-27). -/
def strip_code_fences (s : List Char) : List Char :=
  pyStripL (stripTrailingFence (stripLeadingFence s))

/-- The character scanner of `_escape_newlines_in_strings` (lines 52-81):
`in_str` and `esc` are the quote and backslash-escape states. -/
def escapeNlGo : Bool → Bool → List Char → List Char
  | _, _, [] => []
  | in_str, esc, ch :: t =>
    if in_str then
      if esc then ch :: escapeNlGo true false t
      else if ch = '\\' then ch :: escapeNlGo true true t
      else if ch = '"' then ch :: escapeNlGo false false t
      else if ch = '\n' ∨ ch = '\r' then '\\' :: 'n' :: escapeNlGo true false t
      else ch :: escapeNlGo true false t
    else if ch = '"' then ch :: escapeNlGo true false t
    else ch :: escapeNlGo false false t

/-- `_escape_newlines_in_strings`. -/
def escape_newlines_in_strings (s : List Char) : List Char := escapeNlGo false false s

/-- The scanner of `_remove_trailing_commas` (lines 30-32): the regex
`,\s*([}\]])` replaced by the bracket, scanning left to right (fuelled by
the input length — every step consumes at least one character). -/
def rtcAux : Nat → List Char → List Char
  | 0, s => s
  | fuel + 1, s =>
    match s with
    | [] => []
    | c :: rest =>
      if c = ',' then
        let d := rest.dropWhile Crawler.pyWs
        if d.head? = some '}' then '}' :: rtcAux fuel d.tail
        else if d.head? = some ']' then ']' :: rtcAux fuel d.tail
        else ',' :: rtcAux fuel rest
      else c :: rtcAux fuel rest

/-- `_remove_trailing_commas`. -/
def remove_trailing_commas (s : List Char) : List Char := rtcAux s.length s

/-- Whether the trailing-comma regex `,\s*([}\]])` matches anywhere in `s`
(so `remove_trailing_commas` would alter it). -/
def hasTrailingCommaPattern : List Char → Bool
  | [] => false
  | c :: rest =>
    if c = ',' then
      (if (rest.dropWhile Crawler.pyWs).head? = some '}'
          ∨ (rest.dropWhile Crawler.pyWs).head? = some ']' then true
       else hasTrailingCommaPattern rest)
    else hasTrailingCommaPattern rest

/-- Depth scanner of `_extract_balanced_json` (lines 35-49), run on the
suffix starting at the first `{`. -/
def ebGo : List Char → Nat → List Char → Option (List Char)
  | [], _, _ => none
  | c :: r, depth, acc =>
    if c = '{' then ebGo r (depth + 1) (c :: acc)
    else if c = '}' then
      if depth = 1 then some (c :: acc).reverse
      else ebGo r (depth - 1) (c :: acc)
    else ebGo r depth (c :: acc)

/-- `_extract_balanced_json`. -/
def extract_balanced_json (s : List Char) : Option (List Char) :=
  match s.dropWhile (· ≠ '{') with
  | [] => none
  | t => ebGo t 0 []

/-- The last-resort greedy regex `\{[\s\S]*\}` of `_safe_json_loads`
(line 108): the span from the first `{` to the last `}`, when both exist in
that order. -/
def greedy_brace (s : List Char) : Option (List Char) :=
  let t := s.dropWhile (· ≠ '{')
  let r := (t.reverse.dropWhile (· ≠ '}')).reverse
  if 2 ≤ r.length then some r else none

/-- `_safe_json_loads` (ai_service.py lines 84-114): direct parse, then
sanitize (strip fences, escape raw newlines in strings, drop trailing
commas) and re-parse, then parse the first balanced object, then the greedy
brace span; `none` models the final `JSONDecodeError` (and a parse error
raised from stages 3 or 4, which the source does not catch). -/
def safe_json_loads (s : List Char) : Option Json :=
  match loads s with
  | some j => some j
  | none =>
    let s2 := remove_trailing_commas (escape_newlines_in_strings (strip_code_fences s))
    match loads s2 with
    | some j => some j
    | none =>
      match extract_balanced_json s2 with
      | some block => loads (remove_trailing_commas (escape_newlines_in_strings block))
      | none =>
        match greedy_brace s2 with
        | some block => loads (remove_trailing_commas (escape_newlines_in_strings block))
        | none => none

/-- Wrapping a serialized object in Markdown code fences (the experiment of
the repair round-trip claim). -/
def wrap_fence (s : List Char) : List Char := "```json\n".data ++ s ++ "\n```".data

/-- Adding a trailing comma before the closing bracket of a serialized
object. -/
def add_trailing_comma (s : List Char) : List Char := s.dropLast ++ [',', '}']

/-! ### `_filter_context_by_urls` (ai_service.py lines 247-263) -/

/-- The line loop of `_filter_context_by_urls`: `include` is flipped on every
line starting with `[URL]` (to whether any batch URL occurs in the line) and
lines are kept while `include` holds. -/
def filterLinesGo (urls : List String) : List (List Char) → Bool → List (List Char)
  | [], _ => []
  | line :: rest, include_ =>
    let include' :=
      if "[URL]".data.isPrefixOf line then urls.any (fun url => hasSub line url.data)
      else include_
    if include' then line :: filterLinesGo urls rest include'
    else filterLinesGo urls rest include'

/-- `_filter_context_by_urls(context, urls)`. -/
def filter_context_by_urls (context : List Char) (urls : List String) : List Char :=
  List.intercalate ['\n'] (filterLinesGo urls (splitCh '\n' context) false)

/-! ### `generate_rfp_analysis` (ai_service.py lines 266-330) -/

/-- Characters allowed in the URL-harvesting regex body `[^\s)"\']+`. -/
def urlChar (c : Char) : Bool :=
  !pyWs c && c ≠ ')' && c ≠ '"' && c ≠ '\''

/-- One anchored attempt of the regex `https?://[^\s)"\']+`. -/
def tryUrlAt (s : List Char) : Option (List Char × List Char) :=
  if "https://".data.isPrefixOf s then
    let rest := s.drop 8
    let run := rest.takeWhile urlChar
    if run.isEmpty then none else some ("https://".data ++ run, rest.dropWhile urlChar)
  else if "http://".data.isPrefixOf s then
    let rest := s.drop 7
    let run := rest.takeWhile urlChar
    if run.isEmpty then none else some ("http://".data ++ run, rest.dropWhile urlChar)
  else none

/-- Left-to-right non-overlapping scan of `re.findall`, fuelled by the input
length (each step consumes at least one character). -/
def findUrlsAux : Nat → List Char → List (List Char)
  | 0, _ => []
  | _, [] => []
  | fuel + 1, c :: rest =>
    match tryUrlAt (c :: rest) with
    | some (u, r) => u :: findUrlsAux fuel r
    | none => findUrlsAux fuel rest

/-- `re.findall(r'https?://[^\s)"\']+', context)`. -/
def find_urls (s : List Char) : List (List Char) := findUrlsAux s.length s

/-- Python `sorted(set(l))` for a list of strings: deduplicate, then sort
ascending. -/
def sortedSet (l : List String) : List String := sortStrings l.dedup

/-- Dynamic batch sizing (ai_service.py lines 281-289). -/
def batchSizeFor (url_count : Nat) : Nat :=
  if url_count ≤ 100 then url_count
  else if url_count ≤ 500 then 100
  else if url_count ≤ 1000 then 80
  else 50

/-- Field-default repair at the end of `_generate_rfp_batch` (lines 574-586):
an empty `page_types` list is replaced by a single `Unknown` entry counting
the pages.  (The missing-key defaults for the other fields are inherent in
the structural model.) -/
def batchFieldDefaults (d : Rfp) : Rfp :=
  if d.page_types.isEmpty then
    { d with page_types :=
        [{ name := "Unknown", description := "Pages analyzed", example_urls := [],
           complexity := "Medium", count := (d.pages.length : Int) }] }
  else d

/-- `generate_rfp_analysis` (ai_service.py lines 266-330).  The language
model call of `_generate_rfp_batch` is abstracted as `oracle`, a function of
the batch context and the batch URL index; `oracle ... = none` models a
batch whose model call or JSON repair raised.  Single-batch inputs return
the batch result directly (line 296); the multi-batch path merges the
successful batches and annotates the merge (line 330). -/
def generate_rfp_analysis (oracle : List Char → List String → Option Rfp)
    (website_context : List Char) (crawled_urls : List String)
    (batch_size? : Option Nat) : Except String Rfp :=
  let urls := sortedSet
    (if crawled_urls.isEmpty then (find_urls website_context).map String.mk else crawled_urls)
  let url_count := urls.length
  if url_count = 0 then
    Except.error "No URLs available. Provide crawled_urls or ensure context contains URLs."
  else
    let batch_size := batch_size?.getD (batchSizeFor url_count)
    if url_count ≤ batch_size then
      match (oracle website_context urls).map batchFieldDefaults with
      | some d => Except.ok d
      | none => Except.error "batch failed"
    else
      let num_batches := (url_count + batch_size - 1) / batch_size
      let batches := (List.range num_batches).filterMap (fun i =>
        let batch_urls := (urls.drop (i * batch_size)).take
          (min ((i + 1) * batch_size) url_count - i * batch_size)
        (oracle (filter_context_by_urls website_context batch_urls) batch_urls).map
          batchFieldDefaults)
      if batches.isEmpty then
        Except.error "All batches failed. Try reducing max_pages or batch_size."
      else Except.ok (annotate_rfp (merge_rfp_batches batches))

instance : Inhabited Json := ⟨Json.null⟩

instance {e a : Type} [DecidableEq e] [DecidableEq a] : DecidableEq (Except e a) := fun x y =>
  match x, y with
  | .ok u, .ok v =>
    if h : u = v then isTrue (by rw [h]) else isFalse (by intro hc; cases hc; exact h rfl)
  | .error u, .error v =>
    if h : u = v then isTrue (by rw [h]) else isFalse (by intro hc; cases hc; exact h rfl)
  | .ok _, .error _ => isFalse (by intro hc; cases hc)
  | .error _, .ok _ => isFalse (by intro hc; cases hc)

/-- Total `count` mass carried by entries named `name` in a page-type list. -/
def ptCountTotal (name : String) (l : List PageTypeEntry) : Int :=
  ((l.filter (fun e => e.name = name)).map (fun e => e.count)).sum

/-- "Component `cname` appears under page type `t`": some page of type `t`
lists `cname` (after stripping) among its components. -/
def appearsUnder (pages : List PageEntry) (cname t : String) : Prop :=
  ∃ p ∈ pages, pageTypeOfPage p = t ∧ cname ∈ pageComps p

instance (pages : List PageEntry) (cname t : String) :
    Decidable (appearsUnder pages cname t) := by
  unfold appearsUnder
  infer_instance

/-- A single-batch analysis result whose only component appears under two
distinct page types but carries no `reusable` mark. -/
def c3rfp : Rfp :=
  { overview := ⟨"", "", "", 2⟩,
    page_types := [{ name := "T1", description := "", example_urls := [],
                     complexity := "Low", count := 1 }],
    components := [{ name := "Hero", found_on_urls := [] }],
    pages := [⟨"https://e.com/a", "T1", ["Hero"]⟩, ⟨"https://e.com/b", "T2", ["Hero"]⟩],
    third_party_integrations := [], recommendations := [] }

end AiService

namespace Crawler

/-! ### Line-decomposition lemmas (used for the batch-context filter) -/

theorem splitCh_ne_nil (sep : Char) (s : List Char) : splitCh sep s ≠ [] := by
  cases s with
  | nil => simp [splitCh]
  | cons c r =>
    simp only [splitCh]
    split
    · simp
    · split <;> simp

theorem splitCh_cons_sep (sep : Char) (r : List Char) :
    splitCh sep (sep :: r) = [] :: splitCh sep r := by
  simp [splitCh]

theorem splitCh_cons_ne (sep : Char) {c : Char} (hc : ¬c = sep) {r h : List Char}
    {t : List (List Char)} (hS : splitCh sep r = h :: t) :
    splitCh sep (c :: r) = (c :: h) :: t := by
  simp only [splitCh, hc, if_false, hS]

theorem prefixLines_take (sep : Char) :
    ∀ (s : List Char) (n : Nat), PrefixLines (splitCh sep (s.take n)) (splitCh sep s)
  | [], n => by
    rw [List.take_nil, show splitCh sep [] = [[]] from rfl]
    exact PrefixLines.single (List.nil_prefix)
  | c :: r, 0 => by
    rw [List.take_zero, show splitCh sep [] = [[]] from rfl]
    cases hS : splitCh sep (c :: r) with
    | nil => exact absurd hS (splitCh_ne_nil sep (c :: r))
    | cons h t => exact PrefixLines.single (List.nil_prefix)
  | c :: r, n + 1 => by
    rw [List.take_succ_cons]
    by_cases hc : c = sep
    · subst hc
      rw [splitCh_cons_sep, splitCh_cons_sep]
      exact PrefixLines.cons (prefixLines_take c r n)
    · have IH := prefixLines_take sep r n
      cases hS1 : splitCh sep (r.take n) with
      | nil => exact absurd hS1 (splitCh_ne_nil sep _)
      | cons h' t' =>
        cases hS2 : splitCh sep r with
        | nil => exact absurd hS2 (splitCh_ne_nil sep r)
        | cons h t =>
          rw [splitCh_cons_ne sep hc hS1, splitCh_cons_ne sep hc hS2]
          rw [hS1, hS2] at IH
          cases IH with
          | single hp =>
            obtain ⟨w, hw⟩ := hp
            exact PrefixLines.single ⟨w, by rw [List.cons_append, hw]⟩
          | cons hL => exact PrefixLines.cons hL

theorem prefixLines_transfer {P : List Char → Prop}
    (hP : ∀ x y, x <+: y → P y → P x) :
    ∀ {L₁ L₂ : List (List Char)}, PrefixLines L₁ L₂ → (∀ y ∈ L₂, P y) → ∀ x ∈ L₁, P x := by
  intro L₁ L₂ hPL
  induction hPL with
  | single hp =>
    intro hall x hx
    simp only [List.mem_singleton] at hx
    subst hx
    exact hP _ _ hp (hall _ (List.mem_cons_self _ _))
  | cons hL IH =>
    intro hall x hx
    rcases List.mem_cons.mp hx with h | h
    · subst h; exact hall _ (List.mem_cons_self _ _)
    · exact IH (fun y hy => hall y (List.mem_cons_of_mem _ hy)) x h

theorem splitCh_append_sep (sep : Char) :
    ∀ (a b : List Char), splitCh sep (a ++ sep :: b) = splitCh sep a ++ splitCh sep b
  | [], b => by
    rw [List.nil_append, splitCh_cons_sep, show splitCh sep [] = [[]] from rfl]
    rfl
  | c :: a, b => by
    rw [List.cons_append]
    by_cases hc : c = sep
    · subst hc
      rw [splitCh_cons_sep, splitCh_cons_sep, splitCh_append_sep c a b, List.cons_append]
    · cases hS : splitCh sep a with
      | nil => exact absurd hS (splitCh_ne_nil sep a)
      | cons h t =>
        have h1 : splitCh sep (a ++ sep :: b) = h :: (t ++ splitCh sep b) := by
          rw [splitCh_append_sep sep a b, hS]; rfl
        rw [splitCh_cons_ne sep hc h1, splitCh_cons_ne sep hc hS, List.cons_append]

theorem splitCh_intercalate (sep : Char) :
    ∀ (texts : List (List Char)), texts ≠ [] →
      splitCh sep (List.intercalate [sep] texts) = (texts.map (splitCh sep)).flatten
  | [], h => absurd rfl h
  | [t], _ => by simp [List.intercalate]
  | t :: t' :: rest, _ => by
    have hstep : List.intercalate [sep] (t :: t' :: rest) =
        t ++ sep :: List.intercalate [sep] (t' :: rest) := by
      simp [List.intercalate, List.intersperse]
    rw [hstep, splitCh_append_sep, splitCh_intercalate sep (t' :: rest) (by simp)]
    simp


/-! ### Lemmas about the representative URL selector -/

theorem repSelectGo_cons (nl : String) (mt : Nat) (u : Url) (rest : List Url)
    (acc : List (String × Url)) :
    repSelectGo nl mt (u :: rest) acc =
      if nl ≠ "" && u.netloc ≠ nl then repSelectGo nl mt rest acc
      else if patternOf nl u = "" then repSelectGo nl mt rest acc
      else if (acc.map Prod.fst).contains (patternOf nl u) then repSelectGo nl mt rest acc
      else if mt ≤ (acc ++ [(patternOf nl u, u)]).length then acc ++ [(patternOf nl u, u)]
      else repSelectGo nl mt rest (acc ++ [(patternOf nl u, u)]) := rfl

theorem repSelectGo_length (nl : String) (mt : Nat) :
    ∀ (urls : List Url) (acc : List (String × Url)), acc.length < mt →
      (repSelectGo nl mt urls acc).length ≤ mt
  | [], acc, h => Nat.le_of_lt h
  | u :: rest, acc, h => by
    rw [repSelectGo_cons]
    split_ifs with h1 h2 h3 h4
    · exact repSelectGo_length nl mt rest acc h
    · exact repSelectGo_length nl mt rest acc h
    · exact repSelectGo_length nl mt rest acc h
    · simp only [List.length_append, List.length_cons, List.length_nil]
      omega
    · refine repSelectGo_length nl mt rest _ ?_
      simp only [List.length_append, List.length_cons, List.length_nil] at h4 ⊢
      omega

theorem repSelectGo_spec (nl : String) (mt : Nat) :
    ∀ (urls : List Url) (acc : List (String × Url)),
      (∀ pu ∈ acc, pu.1 = patternOf nl pu.2) →
      ∀ pu ∈ repSelectGo nl mt urls acc, pu.1 = patternOf nl pu.2
  | [], _, hacc => hacc
  | u :: rest, acc, hacc => by
    rw [repSelectGo_cons]
    have hacc' : ∀ pu ∈ acc ++ [(patternOf nl u, u)], pu.1 = patternOf nl pu.2 := by
      intro pu hpu
      rcases List.mem_append.mp hpu with hm | hm
      · exact hacc pu hm
      · simp only [List.mem_singleton] at hm
        subst hm
        rfl
    split_ifs with h1 h2 h3 h4
    · exact repSelectGo_spec nl mt rest acc hacc
    · exact repSelectGo_spec nl mt rest acc hacc
    · exact repSelectGo_spec nl mt rest acc hacc
    · exact hacc'
    · exact repSelectGo_spec nl mt rest _ hacc'

theorem repSelectGo_nodup (nl : String) (mt : Nat) :
    ∀ (urls : List Url) (acc : List (String × Url)),
      (acc.map Prod.fst).Nodup →
      ((repSelectGo nl mt urls acc).map Prod.fst).Nodup
  | [], _, hacc => hacc
  | u :: rest, acc, hacc => by
    rw [repSelectGo_cons]
    split_ifs with h1 h2 h3 h4
    · exact repSelectGo_nodup nl mt rest acc hacc
    · exact repSelectGo_nodup nl mt rest acc hacc
    · exact repSelectGo_nodup nl mt rest acc hacc
    · rw [List.map_append]
      refine List.Nodup.append hacc (by simp) ?_
      intro p hp hq
      simp only [List.map_cons, List.map_nil, List.mem_singleton] at hq
      subst hq
      exact h3 (by simpa using hp)
    · refine repSelectGo_nodup nl mt rest _ ?_
      rw [List.map_append]
      refine List.Nodup.append hacc (by simp) ?_
      intro p hp hq
      simp only [List.map_cons, List.map_nil, List.mem_singleton] at hq
      subst hq
      exact h3 (by simpa using hp)

theorem repSelectGo_sublist (nl : String) (mt : Nat) :
    ∀ (urls : List Url) (acc : List (String × Url)),
      ∃ t, repSelectGo nl mt urls acc = acc ++ t ∧ List.Sublist (t.map Prod.snd) urls
  | [], acc => ⟨[], by simp [repSelectGo]⟩
  | u :: rest, acc => by
    rw [repSelectGo_cons]
    split_ifs with h1 h2 h3 h4
    · obtain ⟨t, ht, hs⟩ := repSelectGo_sublist nl mt rest acc
      exact ⟨t, ht, hs.cons u⟩
    · obtain ⟨t, ht, hs⟩ := repSelectGo_sublist nl mt rest acc
      exact ⟨t, ht, hs.cons u⟩
    · obtain ⟨t, ht, hs⟩ := repSelectGo_sublist nl mt rest acc
      exact ⟨t, ht, hs.cons u⟩
    · exact ⟨[(patternOf nl u, u)], rfl, by simp⟩
    · obtain ⟨t, ht, hs⟩ := repSelectGo_sublist nl mt rest (acc ++ [(patternOf nl u, u)])
      refine ⟨(patternOf nl u, u) :: t, ?_, ?_⟩
      · rw [ht]; simp
      · simpa using hs.cons₂ u


/-! ### Lemmas about the fetch loop (visited-set idempotence) -/

theorem fetchLoop_mem_none (f : String → Option String) :
    ∀ (urls v : List String) (j : Nat) (u : String), u ∈ v → urls[j]? = some u →
      (fetchLoop f urls v).1[j]? = some none
  | [], _, j, _, _, hj => by simp at hj
  | w :: rest, v, j, u, hv, hj => by
    simp only [fetchLoop]
    split
    · cases j with
      | zero => simp
      | succ k =>
        simp only [List.getElem?_cons_succ] at hj ⊢
        exact fetchLoop_mem_none f rest v k u hv hj
    · cases j with
      | zero =>
        simp only [List.getElem?_cons_zero, Option.some.injEq] at hj
        subst hj
        exact absurd hv (by assumption)
      | succ k =>
        simp only [List.getElem?_cons_succ] at hj ⊢
        exact fetchLoop_mem_none f rest (w :: v) k u (List.mem_cons_of_mem w hv) hj

theorem fetchLoop_dup_none (f : String → Option String) :
    ∀ (urls v : List String) (i j : Nat) (u : String), i < j →
      urls[i]? = some u → urls[j]? = some u →
      (fetchLoop f urls v).1[j]? = some none
  | [], _, _, _, _, _, hi, _ => by simp at hi
  | w :: rest, v, i, j, u, hij, hi, hj => by
    cases j with
    | zero => omega
    | succ k =>
      simp only [List.getElem?_cons_succ] at hj
      cases i with
      | zero =>
        simp only [List.getElem?_cons_zero, Option.some.injEq] at hi
        subst hi
        simp only [fetchLoop]
        split
        · simp only [List.getElem?_cons_succ]
          exact fetchLoop_mem_none f rest v k w (by assumption) hj
        · simp only [List.getElem?_cons_succ]
          exact fetchLoop_mem_none f rest (w :: v) k w (List.mem_cons_self w v) hj
      | succ i' =>
        simp only [List.getElem?_cons_succ] at hi
        simp only [fetchLoop]
        split
        · simp only [List.getElem?_cons_succ]
          exact fetchLoop_dup_none f rest v i' k u (by omega) hi hj
        · simp only [List.getElem?_cons_succ]
          exact fetchLoop_dup_none f rest (w :: v) i' k u (by omega) hi hj

theorem fetchLoop_performed (f : String → Option String) :
    ∀ (urls v : List String),
      (fetchLoop f urls v).2.2.Nodup ∧ ∀ u ∈ v, u ∉ (fetchLoop f urls v).2.2
  | [], v => by simp [fetchLoop]
  | w :: rest, v => by
    simp only [fetchLoop]
    split
    · exact fetchLoop_performed f rest v
    · rename_i hw
      obtain ⟨hnd, hdisj⟩ := fetchLoop_performed f rest (w :: v)
      refine ⟨List.Nodup.cons ?_ hnd, ?_⟩
      · exact hdisj w (List.mem_cons_self w v)
      · intro u hu hmem
        rcases List.mem_cons.mp hmem with h | h
        · subst h; exact hw hu
        · exact hdisj u (List.mem_cons_of_mem w hu) h

end Crawler

/-! ## Claim theorems -/

/-- **C6.**  For same-host URLs, `_normalize_pattern` maps `/products/123`
and `/products/456` to the same pattern, while
`/products/running-shoes-for-trail-use` (long trailing slug) and `/about`
normalize to two distinct patterns that also differ from the
`/products/:id` pattern. -/
theorem C6_normalize_patterns :
    Crawler.normalize_pattern ⟨"example.com", "/products/123"⟩ "example.com" = "/products/:id" ∧
    Crawler.normalize_pattern ⟨"example.com", "/products/456"⟩ "example.com" = "/products/:id" ∧
    Crawler.normalize_pattern ⟨"example.com", "/products/running-shoes-for-trail-use"⟩
      "example.com" = "/products/:slug" ∧
    Crawler.normalize_pattern ⟨"example.com", "/about"⟩ "example.com" = "/about" ∧
    ("/products/:slug" : String) ≠ "/about" ∧
    ("/products/:slug" : String) ≠ "/products/:id" ∧
    ("/about" : String) ≠ "/products/:id" := by
  decide

/-- **C8 (counterexample).**  A page whose markup contains exactly 8
`<script` occurrences and none of the SPA markers, with extracted text
shorter than 300 characters, *does* trigger the rendered fallback even
though the script-tag count does not exceed 8 — refuting the claim's
strict-threshold reading. -/
theorem C8_counterexample :
    Crawler.countScript (String.join (List.replicate 8 "<script>")).data = 8 ∧
    ¬(8 < Crawler.countScript (String.join (List.replicate 8 "<script>")).data) ∧
    (Crawler.spaMarkers.all
      (fun m => !Crawler.hasSub (String.join (List.replicate 8 "<script>")).data m)) = true ∧
    Crawler.looks_like_spa (String.join (List.replicate 8 "<script>")).data 10 = true := by
  decide

/-- **C8 (amended).**  When `renderJS` is false, the rendered-browser
fallback (`_looks_like_spa`) is triggered if and only if the statically
extracted text is shorter than 300 characters AND either a known
single-page-application marker appears in the raw markup or the script-tag
count is **at least** 8. -/
theorem C8_spa_fallback_iff (html : List Char) (text_len : Nat) :
    Crawler.looks_like_spa html text_len = true ↔
      (text_len < 300 ∧
        ((Crawler.spaMarkers.any (fun m => Crawler.hasSub html m)) = true ∨
          8 ≤ Crawler.countScript html)) := by
  unfold Crawler.looks_like_spa
  by_cases h1 : text_len < 300 <;>
    by_cases h2 : (Crawler.spaMarkers.any (fun m => Crawler.hasSub html m)) = true <;>
      by_cases h3 : 8 ≤ Crawler.countScript html <;> simp [h1, h2, h3]

/-- **C9.**  Within one `crawl_website` call, a URL appearing twice in the
list of URLs to crawl is fetched at most once: the list of URLs for which a
network request is performed has no duplicates, never contains an
already-visited URL, and every fetch of a URL occurring earlier in the list
returns absent (`none`). -/
theorem C9_fetch_visited_dedup (f : String → Option String) (urls visited₀ : List String) :
    (Crawler.fetchLoop f urls visited₀).2.2.Nodup ∧
    (∀ u ∈ visited₀, u ∉ (Crawler.fetchLoop f urls visited₀).2.2) ∧
    (∀ (i j : Nat) (u : String), i < j → urls[i]? = some u → urls[j]? = some u →
      (Crawler.fetchLoop f urls visited₀).1[j]? = some none) :=
  ⟨(Crawler.fetchLoop_performed f urls visited₀).1,
   (Crawler.fetchLoop_performed f urls visited₀).2,
   fun i j u hij hi hj => Crawler.fetchLoop_dup_none f urls visited₀ i j u hij hi hj⟩

/-- Witness for C9: on the concrete input `["a", "b", "a"]` the second
occurrence of `"a"` yields an absent result. -/
theorem C9_witness :
    (Crawler.fetchLoop (fun _ => some "text") ["a", "b", "a"] []).1[2]? = some none :=
  (C9_fetch_visited_dedup (fun _ => some "text") ["a", "b", "a"] []).2.2 0 2 "a"
    (by omega) (by decide) (by decide)

theorem intercalate_pair (s a b : List Char) : List.intercalate s [a, b] = a ++ s ++ b := by
  simp [List.intercalate, List.intersperse]

set_option maxRecDepth 4000 in
/-- **C2 (counterexample).**  With a first page of 20000 characters and a
later page `"z"`, the corpus `"\n".join(...)[:20000]` keeps the oldest page
in full and drops the newest page entirely — the aggregate cap truncates the
newest content, not the oldest as claimed. -/
theorem C2_counterexample :
    Crawler.crawl_corpus [List.replicate 20000 'a', ['z']] = List.replicate 20000 'a' ∧
    'z' ∉ Crawler.crawl_corpus [List.replicate 20000 'a', ['z']] := by
  have hj : List.intercalate ['\n'] [List.replicate 20000 'a', ['z']] =
      List.replicate 20000 'a' ++ ['\n', 'z'] := by
    rw [intercalate_pair, List.append_assoc]
    rfl
  constructor
  · show (List.intercalate ['\n'] [List.replicate 20000 'a', ['z']]).take 20000 = _
    rw [hj]
    exact List.take_left' (List.length_replicate 20000 'a')
  · show 'z' ∉ (List.intercalate ['\n'] [List.replicate 20000 'a', ['z']]).take 20000
    rw [hj, List.take_left' (List.length_replicate 20000 'a'), List.mem_replicate]
    decide

/-- **C2 (amended).**  The corpus returned by `crawl_website` is the
newline-join of the per-page extracts, each capped at 6000 characters,
additionally capped at 20000 characters overall by keeping a prefix — i.e.
truncating the newest content, never the oldest: the corpus is a prefix of
the full join, its length never exceeds 20000, every per-page extract is at
most 6000 characters, and when the full join fits in the budget nothing is
dropped. -/
theorem C2_corpus_caps (raws : List (List Char)) :
    Crawler.crawl_corpus_from_raw raws <+:
      List.intercalate ['\n'] (raws.map Crawler.pageCap) ∧
    (Crawler.crawl_corpus_from_raw raws).length ≤ 20000 ∧
    (∀ t ∈ raws.map Crawler.pageCap, t.length ≤ 6000) ∧
    ((List.intercalate ['\n'] (raws.map Crawler.pageCap)).length ≤ 20000 →
      Crawler.crawl_corpus_from_raw raws = List.intercalate ['\n'] (raws.map Crawler.pageCap)) := by
  refine ⟨List.take_prefix _ _, ?_, ?_, ?_⟩
  · simp [Crawler.crawl_corpus_from_raw, Crawler.crawl_corpus]
  · intro t ht
    rcases List.mem_map.mp ht with ⟨r, _, hr⟩
    subst hr
    simp [Crawler.pageCap]
  · intro h
    exact List.take_of_length_le h

/-- Witness for C2: a tiny crawl fits in the aggregate budget and is
returned whole. -/
theorem C2_witness :
    Crawler.crawl_corpus_from_raw [['a']] = List.intercalate ['\n'] ([['a']].map Crawler.pageCap) :=
  (C2_corpus_caps [['a']]).2.2.2 (by decide)


namespace AiService

theorem ptCountTotal_nil (name : String) : ptCountTotal name [] = 0 := rfl

theorem ptCountTotal_cons (name : String) (e : PageTypeEntry) (l : List PageTypeEntry) :
    ptCountTotal name (e :: l) =
      (if e.name = name then e.count else 0) + ptCountTotal name l := by
  by_cases h : e.name = name <;> simp [ptCountTotal, h]

theorem ptCountTotal_upsert (name : String) (pt : PageTypeEntry) :
    ∀ m : List PageTypeEntry,
      ptCountTotal name (upsertPageType m pt) =
        ptCountTotal name m + (if pt.name = name then pt.count else 0)
  | [] => by
    rw [show upsertPageType [] pt = [pt] from rfl, ptCountTotal_cons, ptCountTotal_nil]
    ring
  | e :: rest => by
    simp only [upsertPageType]
    by_cases he : e.name = pt.name
    · rw [if_pos he, ptCountTotal_cons, ptCountTotal_cons]
      by_cases hn : e.name = name
      · have hpt : pt.name = name := he ▸ hn
        simp only [hn, hpt, if_true, eq_self_iff_true]
        ring
      · have hpt : ¬(pt.name = name) := fun h => hn (he.trans h)
        simp only [hn, hpt, if_false, ite_false]
        ring
    · rw [if_neg he, ptCountTotal_cons, ptCountTotal_cons, ptCountTotal_upsert name pt rest]
      ring

theorem ptCountTotal_fold (name : String) :
    ∀ (pts : List PageTypeEntry) (m : List PageTypeEntry),
      ptCountTotal name (pts.foldl upsertPageType m) =
        ptCountTotal name m + ptCountTotal name pts
  | [], m => by simp [ptCountTotal]
  | pt :: rest, m => by
    simp only [List.foldl_cons]
    rw [ptCountTotal_fold name rest (upsertPageType m pt), ptCountTotal_upsert,
      ptCountTotal_cons]
    ring

theorem ptCountTotal_batches (name : String) :
    ∀ (bs : List Rfp) (m : List PageTypeEntry),
      ptCountTotal name (bs.foldl (fun m b => b.page_types.foldl upsertPageType m) m) =
        ptCountTotal name m + (bs.map (fun b => ptCountTotal name b.page_types)).sum
  | [], m => by simp
  | b :: rest, m => by
    simp only [List.foldl_cons, List.map_cons, List.sum_cons]
    rw [ptCountTotal_batches name rest, ptCountTotal_fold]
    ring

/-- **C5.**  Merging the merge of `[A, B]` with `C` yields the same
`page_types[].count` totals per name and the same `pages` list as merging
`[A, B, C]` directly (here they are equal outright, so the sets and totals
agree). -/
theorem C5_merge_order_insensitive (A B C : Rfp) :
    (merge_rfp_batches [merge_rfp_batches [A, B], C]).pages =
      (merge_rfp_batches [A, B, C]).pages ∧
    ∀ name, ptCountTotal name (merge_rfp_batches [merge_rfp_batches [A, B], C]).page_types =
      ptCountTotal name (merge_rfp_batches [A, B, C]).page_types := by
  constructor
  · simp [merge_rfp_batches]
  · intro name
    have h1 : (merge_rfp_batches [merge_rfp_batches [A, B], C]).page_types =
        [merge_rfp_batches [A, B], C].foldl (fun m b => b.page_types.foldl upsertPageType m) [] :=
      rfl
    have h2 : (merge_rfp_batches [A, B]).page_types =
        [A, B].foldl (fun m b => b.page_types.foldl upsertPageType m) [] := rfl
    have h3 : (merge_rfp_batches [A, B, C]).page_types =
        [A, B, C].foldl (fun m b => b.page_types.foldl upsertPageType m) [] := rfl
    rw [h1, h3, ptCountTotal_batches, ptCountTotal_batches]
    simp only [List.map_cons, List.map_nil, List.sum_cons, List.sum_nil, h2,
      ptCountTotal_batches, ptCountTotal_nil]
    ring

end AiService

/-- **C7 (counterexample).**  With `max_types = 0` the selector still
returns one URL (the bound check runs only after an insertion), so "at most
`max_types` URLs for every bound" fails. -/
theorem C7_counterexample :
    (Crawler.representative_urls_from_given_sitemap "example.com"
      [⟨"example.com", "/blog/1"⟩] 0).length = 1 ∧
    ¬((Crawler.representative_urls_from_given_sitemap "example.com"
      [⟨"example.com", "/blog/1"⟩] 0).length ≤ 0) := by decide

/-- **C7 (amended).**  For every URL source and every bound
`max_types ≥ 1`, the representative URL selector returns at most
`max_types` URLs, no two of which normalize to the same pattern, preserving
first-seen order (the result is a subsequence of the input); in particular
a sitemap containing `/blog/1`, `/blog/2`, `/about` with `max_pages = 10`
yields the size-2 representative set `[/blog/1, /about]`, not size 3. -/
theorem C7_representative_selector (sitemap_netloc : String) (urls : List Crawler.Url)
    (max_types : Nat) (h : 1 ≤ max_types) :
    (Crawler.representative_urls_from_given_sitemap sitemap_netloc urls max_types).length
        ≤ max_types ∧
    ((Crawler.representative_urls_from_given_sitemap sitemap_netloc urls max_types).map
      (Crawler.patternOf (Crawler.effNetloc sitemap_netloc urls))).Nodup ∧
    List.Sublist (Crawler.representative_urls_from_given_sitemap sitemap_netloc urls max_types)
      urls ∧
    Crawler.representative_urls_from_given_sitemap "example.com"
      [⟨"example.com", "/blog/1"⟩, ⟨"example.com", "/blog/2"⟩, ⟨"example.com", "/about"⟩] 10 =
      [⟨"example.com", "/blog/1"⟩, ⟨"example.com", "/about"⟩] := by
  refine ⟨?_, ?_, ?_, by decide⟩
  · rw [Crawler.representative_urls_from_given_sitemap, List.length_map]
    exact Crawler.repSelectGo_length _ max_types urls [] (by simpa using h)
  · rw [Crawler.representative_urls_from_given_sitemap]
    have hspec := Crawler.repSelectGo_spec (Crawler.effNetloc sitemap_netloc urls)
      max_types urls [] (by intro pu hpu; simp at hpu)
    have hnd := Crawler.repSelectGo_nodup (Crawler.effNetloc sitemap_netloc urls)
      max_types urls [] (by simp)
    have hmaps : (Crawler.repSelectGo (Crawler.effNetloc sitemap_netloc urls)
        max_types urls []).map
        (fun pu => Crawler.patternOf (Crawler.effNetloc sitemap_netloc urls) pu.2) =
        (Crawler.repSelectGo (Crawler.effNetloc sitemap_netloc urls) max_types urls []).map
          Prod.fst := by
      refine List.map_congr_left ?_
      intro pu hpu
      exact (hspec pu hpu).symm
    rw [List.map_map]
    simpa [Function.comp] using hmaps ▸ hnd
  · rw [Crawler.representative_urls_from_given_sitemap]
    obtain ⟨t, ht, hs⟩ := Crawler.repSelectGo_sublist (Crawler.effNetloc sitemap_netloc urls)
      max_types urls []
    rw [ht]
    simpa using hs

/-- Witness for C7: the selector bound holds at the concrete scenario input. -/
theorem C7_witness :
    (Crawler.representative_urls_from_given_sitemap "example.com"
      [⟨"example.com", "/blog/1"⟩, ⟨"example.com", "/blog/2"⟩, ⟨"example.com", "/about"⟩]
      10).length ≤ 10 :=
  (C7_representative_selector "example.com"
    [⟨"example.com", "/blog/1"⟩, ⟨"example.com", "/blog/2"⟩, ⟨"example.com", "/about"⟩]
    10 (by omega)).1

namespace AiService

theorem filterLinesGo_empty (urls : List String) :
    ∀ lines : List (List Char),
      (∀ l ∈ lines, ¬("[URL]".data.isPrefixOf l = true)) →
      filterLinesGo urls lines false = []
  | [], _ => rfl
  | line :: rest, h => by
    have hline : ¬("[URL]".data.isPrefixOf line = true) := h line (List.mem_cons_self _ _)
    simp only [filterLinesGo, hline, if_false, Bool.false_eq_true]
    exact filterLinesGo_empty urls rest (fun l hl => h l (List.mem_cons_of_mem _ hl))

end AiService

/-- **C10 (counterexample).**  A page whose extracted text does *not* begin
with `[URL]` can still contain an inner line that does, and then
`_filter_context_by_urls` returns a non-empty batch context — refuting the
claim for corpora whose pages merely do not *start* with the marker. -/
theorem C10_counterexample :
    ("[URL]".data.isPrefixOf ('x' :: '\n' :: "[URL] https://a.com".data)) = false ∧
    AiService.filter_context_by_urls
      (Crawler.crawl_corpus_from_raw [('x' :: '\n' :: "[URL] https://a.com".data)])
      ["https://a.com"] ≠ [] := by decide

/-- **C10 (amended).**  For every corpus produced by `crawl_website` in
which no *line* of any page's extracted text begins with the literal marker
`[URL]`, `_filter_context_by_urls` applied to that corpus returns the empty
string for every URL list, so each multi-batch model call receives an empty
batch context. -/
theorem C10_filter_context_empty (raws : List (List Char)) (urls : List String)
    (h : ∀ t ∈ raws, ∀ l ∈ Crawler.splitCh '\n' t, ¬("[URL]".data.isPrefixOf l = true)) :
    AiService.filter_context_by_urls (Crawler.crawl_corpus_from_raw raws) urls = [] := by
  have hclosed : ∀ (x y : List Char), x <+: y →
      ¬("[URL]".data.isPrefixOf y = true) → ¬("[URL]".data.isPrefixOf x = true) := by
    intro x y hxy hy hx
    exact hy (List.isPrefixOf_iff_prefix.mpr
      ((List.isPrefixOf_iff_prefix.mp hx).trans hxy))
  have hall : ∀ l ∈ Crawler.splitCh '\n' (Crawler.crawl_corpus_from_raw raws),
      ¬("[URL]".data.isPrefixOf l = true) := by
    cases hraws : raws.map Crawler.pageCap with
    | nil =>
      have hr : raws = [] := List.map_eq_nil_iff.mp hraws
      subst hr
      intro l hl
      simp only [Crawler.crawl_corpus_from_raw, Crawler.crawl_corpus, List.map_nil] at hl
      rw [show List.intercalate ['\n'] ([] : List (List Char)) = [] from rfl,
        List.take_nil, show Crawler.splitCh '\n' [] = [[]] from rfl] at hl
      simp only [List.mem_singleton] at hl
      subst hl
      decide
    | cons t0 ts =>
      have hne : raws.map Crawler.pageCap ≠ [] := by rw [hraws]; simp
      have hjoin : ∀ l ∈ Crawler.splitCh '\n'
          (List.intercalate ['\n'] (raws.map Crawler.pageCap)),
          ¬("[URL]".data.isPrefixOf l = true) := by
        rw [Crawler.splitCh_intercalate '\n' (raws.map Crawler.pageCap) hne]
        intro l hl
        rcases List.mem_flatten.mp hl with ⟨Ls, hLs, hlLs⟩
        rcases List.mem_map.mp hLs with ⟨tc, htc, hts⟩
        rcases List.mem_map.mp htc with ⟨t, ht, htcap⟩
        subst hts
        subst htcap
        exact Crawler.prefixLines_transfer hclosed
          (Crawler.prefixLines_take '\n' t 6000) (h t ht) l hlLs
      intro l hl
      exact Crawler.prefixLines_transfer hclosed
        (Crawler.prefixLines_take '\n'
          (List.intercalate ['\n'] (raws.map Crawler.pageCap)) 20000)
        hjoin l hl
  rw [AiService.filter_context_by_urls, AiService.filterLinesGo_empty urls _ hall]
  rfl

/-- Witness for C10: a marker-free page yields an empty batch context. -/
theorem C10_witness :
    AiService.filter_context_by_urls (Crawler.crawl_corpus_from_raw [['h', 'i']]) ["u"] = [] :=
  C10_filter_context_empty [['h', 'i']] ["u"] (by decide)

/-- **C1 (counterexample).**  With an empty `crawledURLs` list but a corpus
containing a URL, `generate_rfp_analysis` does *not* fail: the URL-index
fallback harvests URLs from the corpus text (`crawled_urls or re.findall`)
and the analysis proceeds to the model call. -/
theorem C1_counterexample :
    (AiService.generate_rfp_analysis (fun _ _ => some AiService.emptyRfp)
      "see https://a.com/x now".data [] none).isOk = true ∧
    AiService.generate_rfp_analysis (fun _ _ => some AiService.emptyRfp)
      "see https://a.com/x now".data [] none ≠
      Except.error "No URLs available. Provide crawled_urls or ensure context contains URLs." := by
  decide

/-- **C1 (amended).**  For every corpus string in which the URL-harvesting
regex finds no URL, calling `generate_rfp_analysis` with an empty
`crawledURLs` list fails with the input error before any model call is made
(the result does not depend on the model oracle at all). -/
theorem C1_empty_url_error (oracle : List Char → List String → Option AiService.Rfp)
    (context : List Char) (h : AiService.find_urls context = []) :
    AiService.generate_rfp_analysis oracle context [] none =
      Except.error "No URLs available. Provide crawled_urls or ensure context contains URLs." := by
  unfold AiService.generate_rfp_analysis
  simp [h, AiService.sortedSet, AiService.sortStrings]

/-- Witness for C1: a URL-free corpus triggers the input error. -/
theorem C1_witness :
    AiService.generate_rfp_analysis (fun _ _ => none) "no links here".data [] none =
      Except.error "No URLs available. Provide crawled_urls or ensure context contains URLs." :=
  C1_empty_url_error (fun _ _ => none) "no links here".data (by decide)

namespace AiService

theorem mem_compToPageTypes (pages : List PageEntry) (cname t : String) :
    t ∈ compToPageTypes pages cname ↔ appearsUnder pages cname t := by
  simp only [compToPageTypes, List.mem_toFinset, List.mem_map, List.mem_filter, appearsUnder]
  constructor
  · rintro ⟨p, ⟨hp, hc⟩, ht⟩
    exact ⟨p, hp, ht, by simpa using hc⟩
  · rintro ⟨p, hp, ht, hc⟩
    exact ⟨p, ⟨hp, by simpa using hc⟩, ht⟩

end AiService

/-- **C3 (counterexample).**  On the single-batch path (at most 100 URLs)
`generate_rfp_analysis` returns the batch result without running
`_annotate_components_and_page_types` (ai_service.py line 296), so a
component appearing under two different page types is *not* marked
`reusable = "Yes"` — the `reusable` key is absent altogether. -/
theorem C3_counterexample :
    AiService.generate_rfp_analysis (fun _ _ => some AiService.c3rfp) []
      ["https://e.com/a", "https://e.com/b"] none = Except.ok AiService.c3rfp ∧
    (∃ t₁ t₂, t₁ ≠ t₂ ∧ AiService.appearsUnder AiService.c3rfp.pages "Hero" t₁ ∧
      AiService.appearsUnder AiService.c3rfp.pages "Hero" t₂) ∧
    (∀ c ∈ AiService.c3rfp.components, c.reusable ≠ some "Yes") := by
  refine ⟨by decide, ⟨"T1", "T2", by decide, by decide, by decide⟩, by decide⟩

/-- **C3 (amended).**  In every RFPDocument produced by the annotation step
(`_annotate_components_and_page_types`, which the orchestrator applies on
its multi-batch path), a component appearing under two different page types
is marked `reusable = "Yes"`, and a component appearing under exactly one
page type is marked `reusable = "No"`. -/
theorem C3_reusable_flag (pages : List AiService.PageEntry)
    (comps : List AiService.ComponentEntry) (c : AiService.ComponentEntry)
    (hc : c ∈ AiService.annotate_components pages comps) :
    ((∃ t₁ t₂, t₁ ≠ t₂ ∧ AiService.appearsUnder pages (AiService.pyStrip c.name) t₁ ∧
        AiService.appearsUnder pages (AiService.pyStrip c.name) t₂) →
      c.reusable = some "Yes") ∧
    (((∃ t, AiService.appearsUnder pages (AiService.pyStrip c.name) t) ∧
      (∀ t₁ t₂, AiService.appearsUnder pages (AiService.pyStrip c.name) t₁ →
        AiService.appearsUnder pages (AiService.pyStrip c.name) t₂ → t₁ = t₂)) →
      c.reusable = some "No") := by
  rcases List.mem_map.mp hc with ⟨c₀, hc₀, hmap⟩
  subst hmap
  constructor
  · rintro ⟨t₁, t₂, hne, h1, h2⟩
    have hcard : 1 < (AiService.compToPageTypes pages (AiService.pyStrip c₀.name)).card :=
      Finset.one_lt_card.mpr
        ⟨t₁, (AiService.mem_compToPageTypes pages (AiService.pyStrip c₀.name) t₁).mpr h1,
         t₂, (AiService.mem_compToPageTypes pages (AiService.pyStrip c₀.name) t₂).mpr h2, hne⟩
    simp only [if_pos hcard]
  · rintro ⟨⟨t, ht⟩, huniq⟩
    have hcard : (AiService.compToPageTypes pages (AiService.pyStrip c₀.name)).card ≤ 1 :=
      Finset.card_le_one.mpr (fun a ha b hb =>
        huniq a b ((AiService.mem_compToPageTypes pages (AiService.pyStrip c₀.name) a).mp ha)
          ((AiService.mem_compToPageTypes pages (AiService.pyStrip c₀.name) b).mp hb))
    simp only [if_neg
      (by omega : ¬(1 < (AiService.compToPageTypes pages (AiService.pyStrip c₀.name)).card))]

/-- Witness for C3: a component listed on a `T1` page and a `T2` page is
marked reusable by the annotation step. -/
theorem C3_witness :
    (⟨"Hero", [], some "Yes"⟩ : AiService.ComponentEntry).reusable = some "Yes" :=
  (C3_reusable_flag
    [⟨"u1", "T1", ["Hero"]⟩, ⟨"u2", "T2", ["Hero"]⟩]
    [{ name := "Hero", found_on_urls := [] }]
    ⟨"Hero", [], some "Yes"⟩ (by decide)).1
    ⟨"T1", "T2", by decide, by decide, by decide⟩
namespace AiService

theorem attach_map_fn {α γ : Type} (l : List α) (f : α → γ) :
    l.attach.map (fun x => f x.1) = l.map f := by
  simp

theorem jsize_arr (xs : List Json) : jsize (.arr xs) = 2 + (xs.map jsize).sum := by
  rw [jsize]
  simp

theorem jsize_obj (kvs : List (List Char × Json)) :
    jsize (.obj kvs) = 2 + (kvs.map (fun kv => jsize kv.2)).sum := by
  rw [jsize, attach_map_fn kvs (fun kv => jsize kv.2)]

theorem jsize_pos : ∀ j, 1 ≤ jsize j := by
  intro j
  cases j
  case arr xs => rw [jsize_arr]; omega
  case obj kvs => rw [jsize_obj]; omega
  all_goals simp [jsize]

theorem dumpsVal_arr (xs : List Json) :
    dumpsVal (.arr xs) = '[' :: (joinComma (xs.map dumpsVal) ++ [']']) := by
  rw [dumpsVal]
  simp

theorem dumpsVal_obj (kvs : List (List Char × Json)) :
    dumpsVal (.obj kvs) = '{' :: (joinComma (kvs.map
      (fun kv => dumpStringLit kv.1 ++ ':' :: ' ' :: dumpsVal kv.2)) ++ ['}']) := by
  rw [dumpsVal, attach_map_fn kvs (fun kv => dumpStringLit kv.1 ++ ':' :: ' ' :: dumpsVal kv.2)]

-- digit character facts
theorem digitChar_facts : ∀ k, k < 10 →
    (Char.ofNat ('0'.toNat + k)).isDigit = true ∧
    (Char.ofNat ('0'.toNat + k)).toNat - '0'.toNat = k ∧
    Char.ofNat ('0'.toNat + k) ≠ '-' ∧
    jsonWs (Char.ofNat ('0'.toNat + k)) = false ∧
    Char.ofNat ('0'.toNat + k) ≠ ']' ∧ Char.ofNat ('0'.toNat + k) ≠ '}' ∧
    Char.ofNat ('0'.toNat + k) ≠ ',' ∧ Char.ofNat ('0'.toNat + k) ≠ '\n' ∧
    Char.ofNat ('0'.toNat + k) ≠ '\r' := by decide

theorem natDigitsAux_spec : ∀ fuel n, n < fuel →
    (∃ k, k < 10 ∧ (natDigitsAux fuel n).head? = some (Char.ofNat ('0'.toNat + k))) ∧
    (∀ c ∈ natDigitsAux fuel n, ∃ k, k < 10 ∧ c = Char.ofNat ('0'.toNat + k)) ∧
    foldDigits (natDigitsAux fuel n) = n
  | 0, n, h => absurd h (by omega)
  | fuel + 1, n, h => by
    by_cases h10 : n < 10
    · refine ⟨⟨n, h10, by simp [natDigitsAux, h10]⟩, ?_, ?_⟩
      · intro c hc
        simp only [natDigitsAux, h10, if_true, List.mem_singleton] at hc
        exact ⟨n, h10, hc⟩
      · simp only [natDigitsAux, h10, if_true, foldDigits, List.foldl]
        have := (digitChar_facts n h10).2.1
        omega
    · have hrec : n / 10 < fuel := by omega
      obtain ⟨⟨k0, hk0, hhead⟩, hmem, hfold⟩ := natDigitsAux_spec fuel (n / 10) hrec
      have hne : natDigitsAux fuel (n / 10) ≠ [] := by
        intro hnil
        rw [hnil] at hhead
        simp at hhead
      refine ⟨⟨k0, hk0, ?_⟩, ?_, ?_⟩
      · simp only [natDigitsAux, h10, if_false]
        rwa [List.head?_append_of_ne_nil _ hne]
      · intro c hc
        simp only [natDigitsAux, h10, if_false, List.mem_append, List.mem_singleton] at hc
        rcases hc with hc | hc
        · exact hmem c hc
        · exact ⟨n % 10, by omega, hc⟩
      · simp only [natDigitsAux, h10, if_false, foldDigits, List.foldl_append]
        show 10 * foldDigits (natDigitsAux fuel (n / 10)) +
          ((Char.ofNat ('0'.toNat + n % 10)).toNat - '0'.toNat) = n
        rw [hfold]
        have := (digitChar_facts (n % 10) (by omega)).2.1
        omega

end AiService
namespace AiService

theorem natDigits_spec (n : Nat) :
    (∃ k, k < 10 ∧ (natDigits n).head? = some (Char.ofNat ('0'.toNat + k))) ∧
    (∀ c ∈ natDigits n, ∃ k, k < 10 ∧ c = Char.ofNat ('0'.toNat + k)) ∧
    foldDigits (natDigits n) = n :=
  natDigitsAux_spec (n + 1) n (by omega)

theorem hexVal_hexDigit : ∀ k, k < 16 → hexVal (hexDigit k) = some k := by decide

theorem psr_quote (r : List Char) : parseStringRest ('"' :: r) = some ([], r) := by
  conv_lhs => rw [parseStringRest.eq_def]
  simp

theorem psr_unesc {e : Char} {d : Char} (r : List Char) (he : e ≠ 'u')
    (hu : unescChar e = some d) :
    parseStringRest ('\\' :: e :: r) = (parseStringRest r).map (fun p => (d :: p.1, p.2)) := by
  conv_lhs => rw [parseStringRest.eq_def]
  simp [he, hu]

theorem psr_u {h1 h2 h3 h4 : Char} {a b c2 d : Nat} (r : List Char)
    (ha : hexVal h1 = some a) (hb : hexVal h2 = some b) (hc : hexVal h3 = some c2)
    (hd : hexVal h4 = some d) :
    parseStringRest ('\\' :: 'u' :: h1 :: h2 :: h3 :: h4 :: r) =
      (parseStringRest r).map
        (fun p => (Char.ofNat (4096 * a + 256 * b + 16 * c2 + d) :: p.1, p.2)) := by
  conv_lhs => rw [parseStringRest.eq_def]
  simp [ha, hb, hc, hd]

theorem psr_plain {c : Char} (r : List Char) (hq : ¬c = '"') (hbs : ¬c = '\\')
    (hctl : ¬c.toNat < 32) :
    parseStringRest (c :: r) = (parseStringRest r).map (fun p => (c :: p.1, p.2)) := by
  conv_lhs => rw [parseStringRest.eq_def]
  simp [hq, hbs, hctl]

theorem parseStringRest_dump : ∀ (s rest : List Char),
    parseStringRest ((s.map escChar).flatten ++ '"' :: rest) = some (s, rest)
  | [], rest => by
    simp only [List.map_nil, List.flatten_nil, List.nil_append]
    exact psr_quote rest
  | c :: s', rest => by
    have IH := parseStringRest_dump s' rest
    show parseStringRest ((escChar c ++ (s'.map escChar).flatten) ++ '"' :: rest) = _
    rw [List.append_assoc]
    by_cases hq : c = '"'
    · subst hq
      rw [show escChar '"' = ['\\', '"'] from rfl, List.cons_append, List.cons_append,
        List.nil_append, psr_unesc _ (by decide) (show unescChar '"' = some '"' from rfl), IH]
      rfl
    · by_cases hbs : c = '\\'
      · subst hbs
        rw [show escChar '\\' = ['\\', '\\'] from rfl, List.cons_append, List.cons_append,
          List.nil_append, psr_unesc _ (by decide) (show unescChar '\\' = some '\\' from rfl), IH]
        rfl
      · by_cases h3 : c = '\n'
        · subst h3
          rw [show escChar '\n' = ['\\', 'n'] from rfl, List.cons_append, List.cons_append,
            List.nil_append, psr_unesc _ (by decide) (show unescChar 'n' = some '\n' from rfl), IH]
          rfl
        · by_cases h4 : c = '\t'
          · subst h4
            rw [show escChar '\t' = ['\\', 't'] from rfl, List.cons_append, List.cons_append,
              List.nil_append, psr_unesc _ (by decide) (show unescChar 't' = some '\t' from rfl),
              IH]
            rfl
          · by_cases h5 : c = '\r'
            · subst h5
              rw [show escChar '\r' = ['\\', 'r'] from rfl, List.cons_append, List.cons_append,
                List.nil_append,
                psr_unesc _ (by decide) (show unescChar 'r' = some '\r' from rfl), IH]
              rfl
            · by_cases h6 : c = '\x08'
              · subst h6
                rw [show escChar '\x08' = ['\\', 'b'] from rfl, List.cons_append,
                  List.cons_append, List.nil_append,
                  psr_unesc _ (by decide) (show unescChar 'b' = some '\x08' from rfl), IH]
                rfl
              · by_cases h7 : c = '\x0c'
                · subst h7
                  rw [show escChar '\x0c' = ['\\', 'f'] from rfl, List.cons_append,
                    List.cons_append, List.nil_append,
                    psr_unesc _ (by decide) (show unescChar 'f' = some '\x0c' from rfl), IH]
                  rfl
                · by_cases h8 : c.toNat < 32
                  · have hhi : c.toNat / 16 < 16 := by omega
                    have hlo : c.toNat % 16 < 16 := by omega
                    have hesc : escChar c =
                        ['\\', 'u', '0', '0', hexDigit (c.toNat / 16), hexDigit (c.toNat % 16)] := by
                      simp [escChar, hq, hbs, h3, h4, h5, h6, h7, h8]
                    rw [hesc]
                    simp only [List.cons_append, List.nil_append]
                    rw [psr_u _ (show hexVal '0' = some 0 from rfl)
                      (show hexVal '0' = some 0 from rfl)
                      (hexVal_hexDigit _ hhi) (hexVal_hexDigit _ hlo), IH]
                    have hv : (4096 * (0 : Nat) + 256 * 0 + 16 * (c.toNat / 16) + c.toNat % 16)
                        = c.toNat := by omega
                    rw [hv, Char.ofNat_toNat]
                    rfl
                  · have hesc : escChar c = [c] := by
                      simp [escChar, hq, hbs, h3, h4, h5, h6, h7, h8]
                    rw [hesc]
                    simp only [List.cons_append, List.nil_append]
                    rw [psr_plain _ hq hbs h8, IH]
                    rfl

end AiService
namespace AiService

theorem takeWhile_digits : ∀ (ds rest : List Char),
    (∀ c ∈ ds, c.isDigit = true) →
    (∀ c, rest.head? = some c → c.isDigit = false) →
    (ds ++ rest).takeWhile Char.isDigit = ds ∧ (ds ++ rest).dropWhile Char.isDigit = rest
  | [], rest, _, hrest => by
    cases rest with
    | nil => simp
    | cons r rs =>
      have := hrest r rfl
      simp [List.takeWhile_cons, List.dropWhile_cons, this]
  | d :: ds, rest, hds, hrest => by
    have hd := hds d (List.mem_cons_self _ _)
    have IH := takeWhile_digits ds rest (fun c hc => hds c (List.mem_cons_of_mem _ hc)) hrest
    simp [List.takeWhile_cons, List.dropWhile_cons, hd, IH.1, IH.2]

theorem natDigits_all_digit (n : Nat) : ∀ c ∈ natDigits n, c.isDigit = true := by
  intro c hc
  obtain ⟨k, hk, hck⟩ := (natDigits_spec n).2.1 c hc
  subst hck
  exact (digitChar_facts k hk).1

theorem parseNumber_dump (i : Int) (rest : List Char)
    (hrest : ∀ c, rest.head? = some c → c.isDigit = false) :
    parseNumber (intDump i ++ rest) = some (.num i, rest) := by
  obtain ⟨⟨k0, hk0, hhead⟩, hmem, hfold⟩ := natDigits_spec i.natAbs
  have htw := takeWhile_digits (natDigits i.natAbs) rest (natDigits_all_digit i.natAbs) hrest
  have hne : natDigits i.natAbs ≠ [] := by
    intro hnil
    rw [hnil] at hhead
    simp at hhead
  by_cases hneg : i < 0
  · have hdump : intDump i = '-' :: natDigits i.natAbs := by simp [intDump, hneg]
    rw [hdump]
    have hh : (('-' :: natDigits i.natAbs ++ rest)).head? = some '-' := by simp
    simp only [List.cons_append, parseNumber, List.head?_cons, Option.some.injEq, if_pos rfl,
      List.tail_cons]
    rw [htw.1, htw.2]
    have : ¬(natDigits i.natAbs).isEmpty = true := by
      cases hx : natDigits i.natAbs with
      | nil => exact absurd hx hne
      | cons a b => simp
    simp only [this, if_false, Bool.false_eq_true]
    rw [hfold]
    have h2 : (-(i.natAbs : Int)) = i := by omega
    rw [h2]
    simp
  · have hdump : intDump i = natDigits i.natAbs := by simp [intDump, hneg]
    rw [hdump]
    have hh : ((natDigits i.natAbs ++ rest)).head? = some (Char.ofNat ('0'.toNat + k0)) := by
      cases hx : natDigits i.natAbs with
      | nil => exact absurd hx hne
      | cons a b =>
        rw [hx] at hhead
        simp at hhead
        simp [hx, hhead]
    have hnotdash : ¬((natDigits i.natAbs ++ rest).head? = some '-') := by
      rw [hh]
      have := (digitChar_facts k0 hk0).2.2.1
      simpa using this
    simp only [parseNumber, hnotdash, if_false]
    rw [htw.1, htw.2]
    have : ¬(natDigits i.natAbs).isEmpty = true := by
      cases hx : natDigits i.natAbs with
      | nil => exact absurd hx hne
      | cons a b => simp
    simp only [this, if_false, Bool.false_eq_true]
    rw [hfold]
    have h2 : ((i.natAbs : Int)) = i := by omega
    rw [h2]

end AiService
namespace AiService

theorem joinComma_nil : joinComma [] = [] := rfl

theorem joinComma_single (a : List Char) : joinComma [a] = a := by
  simp [joinComma, List.intercalate]

theorem joinComma_cons₂ (a b : List Char) (t : List (List Char)) :
    joinComma (a :: b :: t) = a ++ ',' :: ' ' :: joinComma (b :: t) := by
  simp only [joinComma, List.intercalate, List.intersperse_cons_cons, List.flatten_cons]
  rfl

theorem digit_head_facts : ∀ k, k < 10 →
    jsonWs (Char.ofNat ('0'.toNat + k)) = false ∧
    Char.ofNat ('0'.toNat + k) ≠ ']' ∧ Char.ofNat ('0'.toNat + k) ≠ '}' ∧
    Char.ofNat ('0'.toNat + k) ≠ ',' ∧ Char.ofNat ('0'.toNat + k) ≠ 'n' ∧
    Char.ofNat ('0'.toNat + k) ≠ 't' ∧ Char.ofNat ('0'.toNat + k) ≠ 'f' ∧
    Char.ofNat ('0'.toNat + k) ≠ '"' ∧ Char.ofNat ('0'.toNat + k) ≠ '[' ∧
    Char.ofNat ('0'.toNat + k) ≠ '{' ∧ (Char.ofNat ('0'.toNat + k)).isDigit = true := by
  decide

/-- Head character of a serialized value: never whitespace nor a closing
delimiter nor a comma. -/
theorem dumpsVal_head (j : Json) : ∃ c t, dumpsVal j = c :: t ∧
    jsonWs c = false ∧ c ≠ ']' ∧ c ≠ '}' ∧ c ≠ ',' := by
  cases j with
  | null => exact ⟨'n', ['u', 'l', 'l'], by simp [dumpsVal], by decide, by decide, by decide,
      by decide⟩
  | bool b =>
    cases b with
    | true => exact ⟨'t', ['r', 'u', 'e'], by simp [dumpsVal], by decide, by decide, by decide,
        by decide⟩
    | false => exact ⟨'f', ['a', 'l', 's', 'e'], by simp [dumpsVal], by decide, by decide,
        by decide, by decide⟩
  | num i =>
    obtain ⟨⟨k0, hk0, hhead⟩, hmem, hfold⟩ := natDigits_spec i.natAbs
    have hne : natDigits i.natAbs ≠ [] := by
      intro hnil
      rw [hnil] at hhead
      simp at hhead
    obtain ⟨d, ds, hds⟩ := List.exists_cons_of_ne_nil hne
    have hd : d = Char.ofNat ('0'.toNat + k0) := by
      rw [hds] at hhead
      simpa using hhead
    by_cases hneg : i < 0
    · refine ⟨'-', natDigits i.natAbs, by simp [dumpsVal, intDump, hneg], by decide, by decide,
        by decide, by decide⟩
    · refine ⟨d, ds, ?_, ?_, ?_, ?_, ?_⟩
      · simp [dumpsVal, intDump, hneg, hds]
      · rw [hd]; exact (digit_head_facts k0 hk0).1
      · rw [hd]; exact (digit_head_facts k0 hk0).2.1
      · rw [hd]; exact (digit_head_facts k0 hk0).2.2.1
      · rw [hd]; exact (digit_head_facts k0 hk0).2.2.2.1
  | str s => exact ⟨'"', (s.map escChar).flatten ++ ['"'],
      by simp [dumpsVal, dumpStringLit], by decide, by decide, by decide, by decide⟩
  | arr xs => exact ⟨'[', joinComma (xs.map dumpsVal) ++ [']'], by rw [dumpsVal_arr],
      by decide, by decide, by decide, by decide⟩
  | obj kvs => exact ⟨'{', joinComma (kvs.map
      (fun kv => dumpStringLit kv.1 ++ ':' :: ' ' :: dumpsVal kv.2)) ++ ['}'],
      by rw [dumpsVal_obj], by decide, by decide, by decide, by decide⟩

theorem dropWhile_dumps_append (j : Json) (rest : List Char) :
    (dumpsVal j ++ rest).dropWhile jsonWs = dumpsVal j ++ rest := by
  obtain ⟨c, t, hct, hws, _⟩ := dumpsVal_head j
  rw [hct]
  simp [List.dropWhile_cons, hws]

end AiService
namespace AiService

theorem isPrefixOf_ne_head {a c : Char} (p t : List Char) (h : ¬(a = c)) :
    (a :: p).isPrefixOf (c :: t) = false := by
  simp [List.isPrefixOf, h]

theorem headGuard {b : Char} (hb : b.isDigit = false) (rest : List Char) :
    ∀ c, ((b :: rest).head? = some c) → c.isDigit = false := by
  intro c h
  simp only [List.head?_cons, Option.some.injEq] at h
  subst h
  exact hb

theorem isDigit_ne {c : Char} (h : c.isDigit = true) :
    ¬c = '"' ∧ ¬c = '[' ∧ ¬c = '{' ∧ ¬c = 'n' ∧ ¬c = 't' ∧ ¬c = 'f' := by
  refine ⟨?_, ?_, ?_, ?_, ?_, ?_⟩ <;>
    (intro he; rw [he] at h; exact absurd h (by decide))

theorem intDump_head (i : Int) :
    ∃ c t, intDump i = c :: t ∧ (c = '-' ∨ c.isDigit = true) := by
  obtain ⟨⟨k0, hk0, hhead⟩, _, _⟩ := natDigits_spec i.natAbs
  have hne : natDigits i.natAbs ≠ [] := by
    intro hnil
    rw [hnil] at hhead
    simp at hhead
  obtain ⟨d, ds, hds⟩ := List.exists_cons_of_ne_nil hne
  by_cases hneg : i < 0
  · exact ⟨'-', natDigits i.natAbs, by simp [intDump, hneg], Or.inl rfl⟩
  · refine ⟨d, ds, by simp [intDump, hneg, hds], Or.inr ?_⟩
    have hd : d = Char.ofNat ('0'.toNat + k0) := by
      rw [hds] at hhead
      simpa using hhead
    rw [hd]
    exact (digit_head_facts k0 hk0).2.2.2.2.2.2.2.2.2.2

/-- Dispatch of `parseValue` on a non-literal head character. -/
theorem parseValue_dispatch (f : Nat) (s0 : List Char) (c : Char) (u : List Char)
    (hs : s0.dropWhile jsonWs = c :: u)
    (hn : ¬c = 'n') (ht : ¬c = 't') (hf : ¬c = 'f') :
    parseValue (f + 1) s0 =
      (if c = '"' then (parseStringRest u).map (fun p => (Json.str p.1, p.2))
       else if c = '[' then (parseElems f u).map (fun p => (Json.arr p.1, p.2))
       else if c = '{' then (parseMembers f u).map (fun p => (Json.obj p.1, p.2))
       else if c = '-' || c.isDigit then parseNumber (c :: u)
       else none) := by
  simp only [parseValue]
  rw [hs]
  have h1 : ("null".data).isPrefixOf (c :: u) = false :=
    isPrefixOf_ne_head _ _ (fun he => hn he.symm)
  have h2 : ("true".data).isPrefixOf (c :: u) = false :=
    isPrefixOf_ne_head _ _ (fun he => ht he.symm)
  have h3 : ("false".data).isPrefixOf (c :: u) = false :=
    isPrefixOf_ne_head _ _ (fun he => hf he.symm)
  simp only [h1, h2, h3, Bool.false_eq_true, if_false, List.head?_cons, List.tail_cons]

end AiService
namespace AiService

theorem elems_tail_drop (xs : List Json) (rest : List Char) :
    (joinComma (xs.map dumpsVal) ++ ']' :: rest).dropWhile jsonWs =
      joinComma (xs.map dumpsVal) ++ ']' :: rest := by
  cases xs with
  | nil =>
    rw [List.map_nil, joinComma_nil, List.nil_append]
    simp [List.dropWhile_cons, jsonWs]
  | cons y ys =>
    cases ys with
    | nil =>
      rw [List.map_cons, List.map_nil, joinComma_single]
      exact dropWhile_dumps_append y (']' :: rest)
    | cons z zs =>
      rw [List.map_cons, List.map_cons, joinComma_cons₂, List.append_assoc]
      exact dropWhile_dumps_append y _

theorem members_tail_drop (kvs : List (List Char × Json)) (rest : List Char) :
    (joinComma (kvs.map (fun kv => dumpStringLit kv.1 ++ ':' :: ' ' :: dumpsVal kv.2))
        ++ '}' :: rest).dropWhile jsonWs =
      joinComma (kvs.map (fun kv => dumpStringLit kv.1 ++ ':' :: ' ' :: dumpsVal kv.2))
        ++ '}' :: rest := by
  cases kvs with
  | nil =>
    rw [List.map_nil, joinComma_nil, List.nil_append]
    simp [List.dropWhile_cons, jsonWs]
  | cons kv kvt =>
    have hlit : dumpStringLit kv.1 ++ ':' :: ' ' :: dumpsVal kv.2 =
        '"' :: (((kv.1.map escChar).flatten ++ ['"']) ++ ':' :: ' ' :: dumpsVal kv.2) := by
      rw [dumpStringLit, List.cons_append]
    cases kvt with
    | nil =>
      rw [List.map_cons, List.map_nil, joinComma_single, hlit, List.cons_append]
      simp [List.dropWhile_cons, jsonWs]
    | cons kv2 kvt2 =>
      rw [List.map_cons, List.map_cons, joinComma_cons₂, hlit, List.cons_append,
        List.cons_append]
      simp [List.dropWhile_cons, jsonWs]

end AiService
namespace AiService

theorem parse_dump : ∀ fuel : Nat,
    (∀ (j : Json) (s0 rest : List Char), jsize j < fuel →
      s0.dropWhile jsonWs = dumpsVal j ++ rest →
      (∀ c, rest.head? = some c → c.isDigit = false) →
      parseValue fuel s0 = some (j, rest)) ∧
    (∀ (xs : List Json) (s0 rest : List Char), (xs.map jsize).sum + 1 < fuel →
      s0.dropWhile jsonWs = joinComma (xs.map dumpsVal) ++ ']' :: rest →
      parseElems fuel s0 = some (xs, rest)) ∧
    (∀ (kvs : List (List Char × Json)) (s0 rest : List Char),
      (kvs.map (fun kv => jsize kv.2)).sum + 1 < fuel →
      s0.dropWhile jsonWs = joinComma (kvs.map (fun kv =>
        dumpStringLit kv.1 ++ ':' :: ' ' :: dumpsVal kv.2)) ++ '}' :: rest →
      parseMembers fuel s0 = some (kvs, rest)) := by
  intro fuel
  induction fuel using Nat.strong_induction_on with
  | _ fuel IH =>
  refine ⟨?_, ?_, ?_⟩
  · -- parseValue round trip
    intro j s0 rest hsize hs0 hguard
    cases fuel with
    | zero => exact absurd hsize (by have := jsize_pos j; omega)
    | succ f =>
    cases j with
    | null =>
      have hd : dumpsVal Json.null = ['n', 'u', 'l', 'l'] := by simp [dumpsVal]
      rw [hd] at hs0
      simp only [parseValue]
      rw [hs0]
      simp [List.isPrefixOf]
    | bool b =>
      cases b with
      | true =>
        have hd : dumpsVal (Json.bool true) = ['t', 'r', 'u', 'e'] := by simp [dumpsVal]
        rw [hd] at hs0
        simp only [parseValue]
        rw [hs0]
        simp [List.isPrefixOf]
      | false =>
        have hd : dumpsVal (Json.bool false) = ['f', 'a', 'l', 's', 'e'] := by
          simp [dumpsVal]
        rw [hd] at hs0
        simp only [parseValue]
        rw [hs0]
        simp [List.isPrefixOf]
    | num i =>
      obtain ⟨c, t, hct, hcd⟩ := intDump_head i
      have hdv : dumpsVal (Json.num i) = intDump i := by simp [dumpsVal]
      rw [hdv, hct, List.cons_append] at hs0
      have hntf : ¬c = 'n' ∧ ¬c = 't' ∧ ¬c = 'f' ∧ ¬c = '"' ∧ ¬c = '[' ∧ ¬c = '{' := by
        rcases hcd with hc | hc
        · subst hc
          exact ⟨by decide, by decide, by decide, by decide, by decide, by decide⟩
        · have h6 := isDigit_ne hc
          exact ⟨h6.2.2.2.1, h6.2.2.2.2.1, h6.2.2.2.2.2, h6.1, h6.2.1, h6.2.2.1⟩
      rw [parseValue_dispatch f s0 c (t ++ rest) hs0 hntf.1 hntf.2.1 hntf.2.2.1,
        if_neg hntf.2.2.2.1, if_neg hntf.2.2.2.2.1, if_neg hntf.2.2.2.2.2]
      have hc2 : (c = '-' || c.isDigit) = true := by
        rcases hcd with hc | hc
        · simp [hc]
        · simp [hc]
      rw [if_pos hc2, show c :: (t ++ rest) = intDump i ++ rest from by
        rw [hct, List.cons_append]]
      exact parseNumber_dump i rest hguard
    | str s =>
      have hdv : dumpsVal (Json.str s) = '"' :: ((s.map escChar).flatten ++ ['"']) := by
        simp [dumpsVal, dumpStringLit]
      rw [hdv, List.cons_append] at hs0
      rw [parseValue_dispatch f s0 '"' _ hs0 (by decide) (by decide) (by decide), if_pos rfl]
      have hre : ((s.map escChar).flatten ++ ['"']) ++ rest =
          (s.map escChar).flatten ++ '"' :: rest := by
        rw [List.append_assoc]
        rfl
      rw [hre, parseStringRest_dump]
      rfl
    | arr xs =>
      rw [dumpsVal_arr, List.cons_append] at hs0
      rw [parseValue_dispatch f s0 '[' _ hs0 (by decide) (by decide) (by decide),
        if_neg (by decide), if_pos rfl]
      have hre : (joinComma (xs.map dumpsVal) ++ [']']) ++ rest =
          joinComma (xs.map dumpsVal) ++ ']' :: rest := by
        rw [List.append_assoc]
        rfl
      rw [hre]
      have hsz : (xs.map jsize).sum + 1 < f := by
        rw [jsize_arr] at hsize
        omega
      rw [(IH f (by omega)).2.1 xs _ rest hsz (elems_tail_drop xs rest)]
      rfl
    | obj kvs =>
      rw [dumpsVal_obj, List.cons_append] at hs0
      rw [parseValue_dispatch f s0 '{' _ hs0 (by decide) (by decide) (by decide),
        if_neg (by decide), if_neg (by decide), if_pos rfl]
      have hre : (joinComma (kvs.map (fun kv => dumpStringLit kv.1 ++ ':' :: ' ' ::
          dumpsVal kv.2)) ++ ['}']) ++ rest =
          joinComma (kvs.map (fun kv => dumpStringLit kv.1 ++ ':' :: ' ' ::
            dumpsVal kv.2)) ++ '}' :: rest := by
        rw [List.append_assoc]
        rfl
      rw [hre]
      have hsz : (kvs.map (fun kv => jsize kv.2)).sum + 1 < f := by
        rw [jsize_obj] at hsize
        omega
      rw [(IH f (by omega)).2.2 kvs _ rest hsz (members_tail_drop kvs rest)]
      rfl
  · -- parseElems round trip
    intro xs s0 rest hsz hs0
    cases fuel with
    | zero => omega
    | succ f =>
    simp only [parseElems]
    rw [hs0]
    cases xs with
    | nil =>
      simp only [List.map_nil, joinComma_nil, List.nil_append]
      simp
    | cons x xs' =>
      obtain ⟨c, t, hct, hws, hbr1, hbr2, hbr3⟩ := dumpsVal_head x
      have hxsz : jsize x < f := by
        simp only [List.map_cons, List.sum_cons] at hsz
        have := jsize_pos x
        omega
      cases xs' with
      | nil =>
        simp only [List.map_cons, List.map_nil, joinComma_single]
        have hne : ¬((dumpsVal x ++ ']' :: rest).head? = some ']') := by
          rw [hct, List.cons_append, List.head?_cons]
          simp [hbr1]
        rw [if_neg hne]
        rw [(IH f (by omega)).1 x (dumpsVal x ++ ']' :: rest) (']' :: rest) hxsz
          (dropWhile_dumps_append x (']' :: rest)) (headGuard (by decide) rest)]
        have hdw : (']' :: rest).dropWhile jsonWs = ']' :: rest := by
          simp [List.dropWhile_cons, jsonWs]
        simp only [hdw, List.head?_cons]
        simp
      | cons z zs =>
        simp only [List.map_cons, joinComma_cons₂, List.append_assoc, List.cons_append]
        have hne : ¬((dumpsVal x ++ ',' :: ' ' ::
            (joinComma (dumpsVal z :: zs.map dumpsVal) ++ ']' :: rest)).head? = some ']') := by
          rw [hct, List.cons_append, List.head?_cons]
          simp [hbr1]
        rw [if_neg hne]
        rw [(IH f (by omega)).1 x _ (',' :: ' ' ::
            (joinComma (dumpsVal z :: zs.map dumpsVal) ++ ']' :: rest)) hxsz
          (dropWhile_dumps_append x _) (headGuard (by decide) _)]
        have hdw : List.dropWhile jsonWs
            (',' :: ' ' :: (joinComma (dumpsVal z :: zs.map dumpsVal) ++ ']' :: rest)) =
            ',' :: ' ' :: (joinComma (dumpsVal z :: zs.map dumpsVal) ++ ']' :: rest) := by
          simp [List.dropWhile_cons, jsonWs]
        simp only [hdw, List.head?_cons, if_pos rfl, List.tail_cons]
        have hsz2 : ((z :: zs).map jsize).sum + 1 < f := by
          simp only [List.map_cons, List.sum_cons] at hsz ⊢
          have := jsize_pos x
          omega
        have hdrop2 : List.dropWhile jsonWs
            (' ' :: (joinComma (dumpsVal z :: zs.map dumpsVal) ++ ']' :: rest)) =
            joinComma ((z :: zs).map dumpsVal) ++ ']' :: rest := by
          rw [List.dropWhile_cons]
          simp only [show jsonWs ' ' = true from rfl, if_pos rfl]
          simpa using elems_tail_drop (z :: zs) rest
        rw [(IH f (by omega)).2.1 (z :: zs) _ rest hsz2 hdrop2]
        simp
  · -- parseMembers round trip
    intro kvs s0 rest hsz hs0
    cases fuel with
    | zero => omega
    | succ f =>
    simp only [parseMembers]
    rw [hs0]
    cases kvs with
    | nil =>
      simp only [List.map_nil, joinComma_nil, List.nil_append]
      simp
    | cons kv kvt =>
      have hvsz : jsize kv.2 < f := by
        simp only [List.map_cons, List.sum_cons] at hsz
        have := jsize_pos kv.2
        omega
      have hlit : dumpStringLit kv.1 ++ ':' :: ' ' :: dumpsVal kv.2 =
          '"' :: (((kv.1.map escChar).flatten ++ ['"']) ++ ':' :: ' ' :: dumpsVal kv.2) := by
        rw [dumpStringLit, List.cons_append]
      cases kvt with
      | nil =>
        simp only [List.map_cons, List.map_nil, joinComma_single, hlit, List.cons_append]
        simp only [List.head?_cons, List.tail_cons]
        rw [if_neg (show ¬(some '"' = some '}') from by decide), if_pos trivial]
        have hre : (((kv.1.map escChar).flatten ++ ['"']) ++ ':' :: ' ' :: dumpsVal kv.2)
            ++ '}' :: rest =
            (kv.1.map escChar).flatten ++ '"' :: (':' :: ' ' :: (dumpsVal kv.2 ++ '}' :: rest)) := by
          rw [List.append_assoc, List.append_assoc]
          rfl
        rw [hre, parseStringRest_dump]
        have hdw : (':' :: ' ' :: (dumpsVal kv.2 ++ '}' :: rest)).dropWhile jsonWs =
            ':' :: ' ' :: (dumpsVal kv.2 ++ '}' :: rest) := by
          simp [List.dropWhile_cons, jsonWs]
        simp only [hdw, List.head?_cons, if_pos rfl, List.tail_cons]
        have hdrop2 : (' ' :: (dumpsVal kv.2 ++ '}' :: rest)).dropWhile jsonWs =
            dumpsVal kv.2 ++ '}' :: rest := by
          rw [List.dropWhile_cons]
          simp only [show jsonWs ' ' = true from rfl, if_pos rfl]
          exact dropWhile_dumps_append kv.2 ('}' :: rest)
        rw [(IH f (by omega)).1 kv.2 _ ('}' :: rest) hvsz hdrop2 (headGuard (by decide) rest)]
        have hdw3 : ('}' :: rest).dropWhile jsonWs = '}' :: rest := by
          simp [List.dropWhile_cons, jsonWs]
        simp only [hdw3, List.head?_cons]
        simp
      | cons kv2 kvt2 =>
        simp only [List.map_cons, joinComma_cons₂, hlit, List.cons_append, List.append_assoc]
        simp only [List.head?_cons, List.tail_cons]
        rw [if_neg (show ¬(some '"' = some '}') from by decide), if_pos trivial]
        rw [List.nil_append, parseStringRest_dump]
        have hdw : (':' :: ' ' :: (dumpsVal kv.2 ++ (',' :: ' ' ::
            (joinComma ((dumpStringLit kv2.1 ++ ':' :: ' ' :: dumpsVal kv2.2) ::
              kvt2.map (fun kv => dumpStringLit kv.1 ++ ':' :: ' ' :: dumpsVal kv.2)) ++
                '}' :: rest)))).dropWhile jsonWs =
            ':' :: ' ' :: (dumpsVal kv.2 ++ (',' :: ' ' ::
            (joinComma ((dumpStringLit kv2.1 ++ ':' :: ' ' :: dumpsVal kv2.2) ::
              kvt2.map (fun kv => dumpStringLit kv.1 ++ ':' :: ' ' :: dumpsVal kv.2)) ++
                '}' :: rest))) := by
          simp [List.dropWhile_cons, jsonWs]
        simp only [hdw, List.head?_cons, if_pos rfl, List.tail_cons]
        have hdrop2 : (' ' :: (dumpsVal kv.2 ++ (',' :: ' ' ::
            (joinComma ((dumpStringLit kv2.1 ++ ':' :: ' ' :: dumpsVal kv2.2) ::
              kvt2.map (fun kv => dumpStringLit kv.1 ++ ':' :: ' ' :: dumpsVal kv.2)) ++
                '}' :: rest)))).dropWhile jsonWs =
            dumpsVal kv.2 ++ (',' :: ' ' ::
            (joinComma ((dumpStringLit kv2.1 ++ ':' :: ' ' :: dumpsVal kv2.2) ::
              kvt2.map (fun kv => dumpStringLit kv.1 ++ ':' :: ' ' :: dumpsVal kv.2)) ++
                '}' :: rest)) := by
          rw [List.dropWhile_cons]
          simp only [show jsonWs ' ' = true from rfl, if_pos rfl]
          exact dropWhile_dumps_append kv.2 _
        rw [(IH f (by omega)).1 kv.2 _ _ hvsz hdrop2 (headGuard (by decide) _)]
        have hdw3 : ((',' :: ' ' ::
            (joinComma ((dumpStringLit kv2.1 ++ ':' :: ' ' :: dumpsVal kv2.2) ::
              kvt2.map (fun kv => dumpStringLit kv.1 ++ ':' :: ' ' :: dumpsVal kv.2)) ++
                '}' :: rest))).dropWhile jsonWs = (',' :: ' ' ::
            (joinComma ((dumpStringLit kv2.1 ++ ':' :: ' ' :: dumpsVal kv2.2) ::
              kvt2.map (fun kv => dumpStringLit kv.1 ++ ':' :: ' ' :: dumpsVal kv.2)) ++
                '}' :: rest)) := by
          simp [List.dropWhile_cons, jsonWs]
        simp only [hdw3, List.head?_cons, if_pos rfl, List.tail_cons]
        have hsz2 : ((kv2 :: kvt2).map (fun kv => jsize kv.2)).sum + 1 < f := by
          simp only [List.map_cons, List.sum_cons] at hsz ⊢
          have := jsize_pos kv.2
          omega
        have hdrop4 : (' ' ::
            (joinComma ((dumpStringLit kv2.1 ++ ':' :: ' ' :: dumpsVal kv2.2) ::
              kvt2.map (fun kv => dumpStringLit kv.1 ++ ':' :: ' ' :: dumpsVal kv.2)) ++
                '}' :: rest)).dropWhile jsonWs =
            joinComma ((kv2 :: kvt2).map
              (fun kv => dumpStringLit kv.1 ++ ':' :: ' ' :: dumpsVal kv.2)) ++ '}' :: rest := by
          rw [List.dropWhile_cons]
          simp only [show jsonWs ' ' = true from rfl, if_pos rfl]
          simpa using members_tail_drop (kv2 :: kvt2) rest
        rw [(IH f (by omega)).2.2 (kv2 :: kvt2) _ rest hsz2 hdrop4]
        simp

/-- Structural induction principle for the nested inductive `Json`. -/
theorem Json.myInd (motive : Json → Prop)
    (hnull : motive .null) (hbool : ∀ b, motive (.bool b))
    (hnum : ∀ i, motive (.num i)) (hstr : ∀ s, motive (.str s))
    (harr : ∀ xs, (∀ x ∈ xs, motive x) → motive (.arr xs))
    (hobj : ∀ kvs, (∀ kv ∈ kvs, motive kv.2) → motive (.obj kvs)) :
    ∀ j, motive j
  | .null => hnull
  | .bool b => hbool b
  | .num i => hnum i
  | .str s => hstr s
  | .arr xs => harr xs (fun x hx =>
      Json.myInd motive hnull hbool hnum hstr harr hobj x)
  | .obj kvs => hobj kvs (fun kv hkv =>
      Json.myInd motive hnull hbool hnum hstr harr hobj kv.2)
termination_by j => sizeOf j
decreasing_by
  · have := List.sizeOf_lt_of_mem hx
    simp [Json.arr.sizeOf_spec]
    omega
  · have h1 := List.sizeOf_lt_of_mem hkv
    have h2 : sizeOf kv.2 < sizeOf kv := by
      obtain ⟨a, b⟩ := kv
      simp
    simp [Json.obj.sizeOf_spec]
    omega

/-- The comma-join is at least as long as the sum of the part lengths. -/
theorem joinComma_len_ge : ∀ ls : List (List Char),
    (ls.map List.length).sum ≤ (joinComma ls).length := by
  intro ls
  induction ls with
  | nil => simp [joinComma_nil]
  | cons a t IH =>
    cases t with
    | nil => simp [joinComma_single]
    | cons b t2 =>
      rw [joinComma_cons₂]
      simp only [List.map_cons, List.sum_cons, List.length_append, List.length_cons] at IH ⊢
      omega

/-- Every character of a comma-join is a separator character or comes from
one of the joined parts. -/
theorem mem_joinComma : ∀ (ls : List (List Char)) (c : Char), c ∈ joinComma ls →
    c = ',' ∨ c = ' ' ∨ ∃ l ∈ ls, c ∈ l := by
  intro ls
  induction ls with
  | nil => intro c hc; rw [joinComma_nil] at hc; exact absurd hc (List.not_mem_nil c)
  | cons a t IH =>
    cases t with
    | nil =>
      intro c hc
      rw [joinComma_single] at hc
      exact Or.inr (Or.inr ⟨a, by simp, hc⟩)
    | cons b t2 =>
      intro c hc
      rw [joinComma_cons₂] at hc
      rcases List.mem_append.1 hc with h | h
      · exact Or.inr (Or.inr ⟨a, by simp, h⟩)
      · rcases List.mem_cons.1 h with rfl | h2
        · exact Or.inl rfl
        rcases List.mem_cons.1 h2 with rfl | h3
        · exact Or.inr (Or.inl rfl)
        rcases IH c h3 with h4 | h4 | ⟨l, hl, hcl⟩
        · exact Or.inl h4
        · exact Or.inr (Or.inl h4)
        · exact Or.inr (Or.inr ⟨l, List.mem_cons.2 (Or.inr hl), hcl⟩)

/-- The serializer never emits the empty list. -/
theorem dumpsVal_ne_nil (j : Json) : dumpsVal j ≠ [] := by
  obtain ⟨c, t, hct, -⟩ := dumpsVal_head j
  rw [hct]
  exact List.cons_ne_nil c t

/-- Fuel adequacy: the abstract size of a value is bounded by the length of
its serialization. -/
theorem jsize_le_len : ∀ j : Json, jsize j ≤ (dumpsVal j).length := by
  refine Json.myInd (fun j => jsize j ≤ (dumpsVal j).length) ?_ ?_ ?_ ?_ ?_ ?_
  · simp [jsize, dumpsVal]
  · intro b; cases b <;> simp [jsize, dumpsVal]
  · intro i
    have h1 : 1 ≤ (dumpsVal (.num i)).length := by
      have := dumpsVal_ne_nil (.num i)
      cases hx : dumpsVal (.num i) with
      | nil => exact absurd hx this
      | cons c t => simp
    calc jsize (.num i) = 1 := by rw [jsize]
    _ ≤ _ := h1
  · intro s
    have h1 : 1 ≤ (dumpsVal (.str s)).length := by
      have := dumpsVal_ne_nil (.str s)
      cases hx : dumpsVal (.str s) with
      | nil => exact absurd hx this
      | cons c t => simp
    calc jsize (.str s) = 1 := by rw [jsize]
    _ ≤ _ := h1
  · intro xs IH
    rw [jsize_arr, dumpsVal_arr]
    have h1 : (xs.map jsize).sum ≤ (xs.map (fun x => (dumpsVal x).length)).sum :=
      List.sum_le_sum (fun x hx => IH x hx)
    have h2 : xs.map (fun x => (dumpsVal x).length) = (xs.map dumpsVal).map List.length := by
      rw [List.map_map]
      rfl
    have h3 := joinComma_len_ge (xs.map dumpsVal)
    rw [h2] at h1
    simp only [List.length_cons, List.length_append, List.length_singleton]
    omega
  · intro kvs IH
    rw [jsize_obj, dumpsVal_obj]
    have h1 : (kvs.map (fun kv => jsize kv.2)).sum ≤
        (kvs.map (fun kv => (dumpStringLit kv.1 ++ ':' :: ' ' :: dumpsVal kv.2).length)).sum := by
      refine List.sum_le_sum (fun kv hkv => ?_)
      have := IH kv hkv
      simp only [List.length_append, List.length_cons]
      omega
    have h2 : kvs.map (fun kv => (dumpStringLit kv.1 ++ ':' :: ' ' :: dumpsVal kv.2).length) =
        (kvs.map (fun kv => dumpStringLit kv.1 ++ ':' :: ' ' :: dumpsVal kv.2)).map
          List.length := by
      rw [List.map_map]
      rfl
    have h3 := joinComma_len_ge (kvs.map (fun kv => dumpStringLit kv.1 ++ ':' :: ' ' ::
      dumpsVal kv.2))
    rw [h2] at h1
    simp only [List.length_cons, List.length_append, List.length_singleton]
    omega

theorem hexDigit_no_nl : ∀ k, k < 16 → hexDigit k ≠ '\n' ∧ hexDigit k ≠ '\r' := by decide

/-- The escape of one string character never contains a raw newline or
carriage return. -/
theorem escChar_chars : ∀ (d c : Char), c ∈ escChar d → c ≠ '\n' ∧ c ≠ '\r' := by
  intro d c hc
  rw [escChar] at hc
  split_ifs at hc with h1 h2 h3 h4 h5 h6 h7 h8
  · rcases List.mem_cons.1 hc with rfl | hc2
    · exact ⟨by decide, by decide⟩
    · simp only [List.mem_singleton] at hc2
      subst hc2
      exact ⟨by decide, by decide⟩
  · rcases List.mem_cons.1 hc with rfl | hc2
    · exact ⟨by decide, by decide⟩
    · simp only [List.mem_singleton] at hc2
      subst hc2
      exact ⟨by decide, by decide⟩
  · rcases List.mem_cons.1 hc with rfl | hc2
    · exact ⟨by decide, by decide⟩
    · simp only [List.mem_singleton] at hc2
      subst hc2
      exact ⟨by decide, by decide⟩
  · rcases List.mem_cons.1 hc with rfl | hc2
    · exact ⟨by decide, by decide⟩
    · simp only [List.mem_singleton] at hc2
      subst hc2
      exact ⟨by decide, by decide⟩
  · rcases List.mem_cons.1 hc with rfl | hc2
    · exact ⟨by decide, by decide⟩
    · simp only [List.mem_singleton] at hc2
      subst hc2
      exact ⟨by decide, by decide⟩
  · rcases List.mem_cons.1 hc with rfl | hc2
    · exact ⟨by decide, by decide⟩
    · simp only [List.mem_singleton] at hc2
      subst hc2
      exact ⟨by decide, by decide⟩
  · rcases List.mem_cons.1 hc with rfl | hc2
    · exact ⟨by decide, by decide⟩
    · simp only [List.mem_singleton] at hc2
      subst hc2
      exact ⟨by decide, by decide⟩
  · rcases List.mem_cons.1 hc with rfl | hc2
    · exact ⟨by decide, by decide⟩
    rcases List.mem_cons.1 hc2 with rfl | hc3
    · exact ⟨by decide, by decide⟩
    rcases List.mem_cons.1 hc3 with rfl | hc4
    · exact ⟨by decide, by decide⟩
    rcases List.mem_cons.1 hc4 with rfl | hc5
    · exact ⟨by decide, by decide⟩
    rcases List.mem_cons.1 hc5 with rfl | hc6
    · exact hexDigit_no_nl (d.toNat / 16) (by omega)
    simp only [List.mem_singleton] at hc6
    subst hc6
    exact hexDigit_no_nl (d.toNat % 16) (by omega)
  · simp only [List.mem_singleton] at hc
    subst hc
    constructor
    · intro he
      subst he
      exact h8 (by decide)
    · intro he
      subst he
      exact h8 (by decide)

/-- A serialized string literal never contains a raw newline or carriage
return. -/
theorem dumpStringLit_chars : ∀ (s : List Char) (c : Char), c ∈ dumpStringLit s →
    c ≠ '\n' ∧ c ≠ '\r' := by
  intro s c hc
  rw [dumpStringLit] at hc
  rcases List.mem_cons.1 hc with rfl | hc2
  · exact ⟨by decide, by decide⟩
  rcases List.mem_append.1 hc2 with h | h
  · obtain ⟨l, hl, hcl⟩ := List.mem_flatten.1 h
    obtain ⟨d, _, rfl⟩ := List.mem_map.1 hl
    exact escChar_chars d c hcl
  · simp only [List.mem_singleton] at h
    subst h
    exact ⟨by decide, by decide⟩

/-- A serialized integer never contains a raw newline or carriage return. -/
theorem intDump_chars : ∀ (i : Int) (c : Char), c ∈ intDump i →
    c ≠ '\n' ∧ c ≠ '\r' := by
  intro i c hc
  have hdig := (natDigitsAux_spec (i.natAbs + 1) i.natAbs (by omega)).2.1
  rw [intDump] at hc
  have hofdig : c ∈ natDigits i.natAbs → c ≠ '\n' ∧ c ≠ '\r' := by
    intro hm
    obtain ⟨k, hk, rfl⟩ := hdig c hm
    have hf := digitChar_facts k hk
    exact ⟨hf.2.2.2.2.2.2.2.1, hf.2.2.2.2.2.2.2.2⟩
  split_ifs at hc with hneg
  · rcases List.mem_cons.1 hc with rfl | hm
    · exact ⟨by decide, by decide⟩
    · exact hofdig hm
  · exact hofdig hc

/-- The serializer never emits a raw newline or carriage return. -/
theorem dumps_no_nl : ∀ j : Json, ∀ c ∈ dumpsVal j, c ≠ '\n' ∧ c ≠ '\r' := by
  refine Json.myInd (fun j => ∀ c ∈ dumpsVal j, c ≠ '\n' ∧ c ≠ '\r') ?_ ?_ ?_ ?_ ?_ ?_
  · intro c hc
    rw [show dumpsVal .null = "null".data from by rw [dumpsVal]] at hc
    revert hc
    revert c
    decide
  · intro b c hc
    cases b
    · rw [show dumpsVal (.bool false) = "false".data from by rw [dumpsVal]] at hc
      revert hc
      revert c
      decide
    · rw [show dumpsVal (.bool true) = "true".data from by rw [dumpsVal]] at hc
      revert hc
      revert c
      decide
  · intro i c hc
    rw [show dumpsVal (.num i) = intDump i from by rw [dumpsVal]] at hc
    exact intDump_chars i c hc
  · intro s c hc
    rw [show dumpsVal (.str s) = dumpStringLit s from by rw [dumpsVal]] at hc
    exact dumpStringLit_chars s c hc
  · intro xs IH c hc
    rw [dumpsVal_arr] at hc
    rcases List.mem_cons.1 hc with rfl | hc2
    · exact ⟨by decide, by decide⟩
    rcases List.mem_append.1 hc2 with h | h
    · rcases mem_joinComma _ c h with rfl | rfl | ⟨l, hl, hcl⟩
      · exact ⟨by decide, by decide⟩
      · exact ⟨by decide, by decide⟩
      · obtain ⟨x, hx, rfl⟩ := List.mem_map.1 hl
        exact IH x hx c hcl
    · simp only [List.mem_singleton] at h
      subst h
      exact ⟨by decide, by decide⟩
  · intro kvs IH c hc
    rw [dumpsVal_obj] at hc
    rcases List.mem_cons.1 hc with rfl | hc2
    · exact ⟨by decide, by decide⟩
    rcases List.mem_append.1 hc2 with h | h
    · rcases mem_joinComma _ c h with rfl | rfl | ⟨l, hl, hcl⟩
      · exact ⟨by decide, by decide⟩
      · exact ⟨by decide, by decide⟩
      · obtain ⟨kv, hkv, rfl⟩ := List.mem_map.1 hl
        rcases List.mem_append.1 hcl with h2 | h2
        · exact dumpStringLit_chars kv.1 c h2
        rcases List.mem_cons.1 h2 with rfl | h3
        · exact ⟨by decide, by decide⟩
        rcases List.mem_cons.1 h3 with rfl | h4
        · exact ⟨by decide, by decide⟩
        · exact IH kv hkv c h4
    · simp only [List.mem_singleton] at h
      subst h
      exact ⟨by decide, by decide⟩

/-- On input without raw newlines the newline-escaping scanner is the
identity, in every state. -/
theorem escapeNlGo_id : ∀ (s : List Char) (b1 b2 : Bool),
    (∀ c ∈ s, c ≠ '\n' ∧ c ≠ '\r') → escapeNlGo b1 b2 s = s := by
  intro s
  induction s with
  | nil => intro b1 b2 _; cases b1 <;> cases b2 <;> rfl
  | cons ch t IH =>
    intro b1 b2 h
    have hch := h ch (List.mem_cons_self ch t)
    have ht : ∀ c ∈ t, c ≠ '\n' ∧ c ≠ '\r' := fun c hc => h c (List.mem_cons.2 (Or.inr hc))
    have hnl : ¬(ch = '\n' ∨ ch = '\r') := by
      rintro (rfl | rfl)
      · exact hch.1 rfl
      · exact hch.2 rfl
    cases b1 with
    | false =>
      cases b2 with
      | false =>
        rw [escapeNlGo]
        split_ifs <;> rw [IH _ _ ht]
      | true =>
        rw [escapeNlGo]
        split_ifs <;> rw [IH _ _ ht]
    | true =>
      cases b2 with
      | true =>
        rw [escapeNlGo]
        split_ifs <;> rw [IH _ _ ht]
      | false =>
        rw [escapeNlGo]
        split_ifs <;>
          first
            | rw [IH _ _ ht]
            | exact absurd ‹ch = '\n' ∨ ch = '\r'› hnl

theorem rtcAux_nil : ∀ f, rtcAux f [] = [] := by
  intro f
  cases f <;> rfl

/-- Removing the one inserted trailing comma: when the serialized object
itself contains no trailing-comma pattern, the scanner deletes exactly the
inserted comma. -/
theorem rtc_insert : ∀ (init : List Char) (fuel : Nat),
    init.length + 2 ≤ fuel →
    hasTrailingCommaPattern (init ++ ['}']) = false →
    rtcAux fuel (init ++ [',', '}']) = init ++ ['}'] := by
  intro init
  induction init with
  | nil =>
    intro fuel hf hp
    obtain ⟨f, rfl⟩ : ∃ f, fuel = f + 1 := ⟨fuel - 1, by omega⟩
    simp only [List.nil_append]
    rw [rtcAux]
    simp [List.dropWhile, Crawler.pyWs, rtcAux_nil]
  | cons c init' IH =>
    intro fuel hf hp
    obtain ⟨f, rfl⟩ : ∃ f, fuel = f + 1 := ⟨fuel - 1, by omega⟩
    by_cases hc : c = ','
    · subst hc
      rw [List.cons_append] at hp ⊢
      rw [hasTrailingCommaPattern, if_pos rfl] at hp
      by_cases hcond : ((init' ++ ['}']).dropWhile Crawler.pyWs).head? = some '}'
          ∨ ((init' ++ ['}']).dropWhile Crawler.pyWs).head? = some ']'
      · rw [if_pos hcond] at hp
        exact absurd hp (by simp)
      · rw [if_neg hcond] at hp
        have hne : init'.dropWhile Crawler.pyWs ≠ [] := by
          intro hnil
          apply hcond
          left
          rw [List.dropWhile_append, hnil]
          simp [List.dropWhile, Crawler.pyWs]
        have hdw1 : (init' ++ [',', '}']).dropWhile Crawler.pyWs =
            init'.dropWhile Crawler.pyWs ++ [',', '}'] := by
          rw [List.dropWhile_append]
          simp [List.isEmpty_iff, hne]
        have hdw2 : (init' ++ ['}']).dropWhile Crawler.pyWs =
            init'.dropWhile Crawler.pyWs ++ ['}'] := by
          rw [List.dropWhile_append]
          simp [List.isEmpty_iff, hne]
        obtain ⟨h0, t0, ht0⟩ : ∃ h0 t0, init'.dropWhile Crawler.pyWs = h0 :: t0 := by
          cases hx : init'.dropWhile Crawler.pyWs with
          | nil => exact absurd hx hne
          | cons a b => exact ⟨a, b, rfl⟩
        have hh0 : ¬(h0 = '}') ∧ ¬(h0 = ']') := by
          rw [hdw2, ht0] at hcond
          push_neg at hcond
          simp only [List.cons_append, List.head?_cons, ne_eq, Option.some.injEq] at hcond
          exact hcond
        rw [rtcAux, if_pos rfl]
        rw [hdw1, ht0]
        simp only [List.cons_append, List.head?_cons, Option.some.injEq]
        rw [if_neg hh0.1, if_neg hh0.2]
        rw [IH f (by simp at hf ⊢; omega) hp]
    · rw [List.cons_append, List.cons_append]
      rw [rtcAux, if_neg hc]
      rw [List.cons_append] at hp
      rw [hasTrailingCommaPattern, if_neg hc] at hp
      rw [IH f (by simp at hf ⊢; omega) hp]

theorem allPyWs_false_of_mem (l : List Char) (c : Char) (hc : c ∈ l)
    (hw : Crawler.pyWs c = false) : allPyWs l = false := by
  rw [allPyWs, List.all_eq_false]
  exact ⟨c, hc, by simp [hw]⟩

/-- The trailing code fence is removed, and only it: removing the leftmost
whitespace-only-suffixed fence from `a ++ "\n```"` yields `a ++ "\n"`. -/
theorem stripTrailingFence_append : ∀ a : List Char,
    stripTrailingFence (a ++ '\n' :: '`' :: '`' :: '`' :: []) = a ++ ['\n'] := by
  intro a
  induction a with
  | nil => rfl
  | cons c a' IH =>
    rw [List.cons_append, stripTrailingFence]
    have hmem : '`' ∈ ((c :: (a' ++ '\n' :: '`' :: '`' :: '`' :: [])).drop 3) := by
      rcases a' with _ | ⟨c1, a''⟩
      · simp
      rcases a'' with _ | ⟨c2, a3⟩
      · simp
      · show '`' ∈ a3 ++ '\n' :: '`' :: '`' :: '`' :: []
        exact List.mem_append.2 (Or.inr (by simp))
    rw [allPyWs_false_of_mem _ '`' hmem (by decide)]
    simp only [Bool.and_false, Bool.false_eq_true, if_false]
    rw [IH, List.cons_append]

/-- Stripping the leading fence of a fenced block exposes the newline and
the body. -/
theorem stripLeadingFence_wrap (r : List Char) :
    stripLeadingFence ("```json\n".data ++ r) = '\n' :: r := by
  rfl

/-- Stripping matched surrounding newlines around a brace-delimited body. -/
theorem pyStripL_sandwich (M : List Char) :
    pyStripL ('\n' :: ('{' :: (M ++ ['}']) ++ ['\n'])) = '{' :: (M ++ ['}']) := by
  rw [pyStripL]
  rw [List.dropWhile_cons]
  simp only [show Crawler.pyWs '\n' = true from rfl, if_true]
  rw [List.cons_append, List.dropWhile_cons]
  simp only [show Crawler.pyWs '{' = false from rfl, Bool.false_eq_true, if_false]
  rw [show (M ++ ['}']) ++ ['\n'] = M ++ ['}', '\n'] from by simp]
  rw [List.reverse_cons, List.reverse_append]
  rw [show ((['}', '\n'].reverse ++ M.reverse) ++ ['{']) =
    '\n' :: ('}' :: (M.reverse ++ ['{'])) from by simp]
  rw [List.dropWhile_cons]
  simp only [show Crawler.pyWs '\n' = true from rfl, if_true]
  rw [List.dropWhile_cons]
  simp only [show Crawler.pyWs '}' = false from rfl, Bool.false_eq_true, if_false]
  simp

/-- `json.loads` succeeds on the serializer output and returns the original
value. -/
theorem loads_dumps (j : Json) : loads (dumpsVal j) = some j := by
  rw [loads]
  have h := (parse_dump ((dumpsVal j).length + 1)).1 j (dumpsVal j) []
    (by have := jsize_le_len j; omega)
    (by
      have h2 := dropWhile_dumps_append j []
      rw [List.append_nil] at h2
      rw [h2, List.append_nil])
    (by intro c hc; simp at hc)
  rw [h]
  simp

/-- `json.loads` rejects any input starting with a backtick. -/
theorem loads_backtick (t : List Char) : loads ('`' :: t) = none := by
  rw [loads]
  have hdw : ('`' :: t).dropWhile jsonWs = '`' :: t := by
    rw [List.dropWhile_cons]
    simp [jsonWs]
  have h := parseValue_dispatch (('`' :: t).length) ('`' :: t) '`' t hdw
    (by decide) (by decide) (by decide)
  rw [show ('`' :: t).length + 1 = ('`' :: t).length + 1 from rfl] at h
  rw [h]
  simp [Char.isDigit]

/-- **C4 (amended).**  Serializing a JSON object whose serialized text
contains no trailing-comma pattern, wrapping it in Markdown code fences and
inserting a trailing comma before the closing brace, then running the
repair pipeline of `_safe_json_loads`, returns exactly the original
object. -/
theorem C4_repair_roundtrip (kvs : List (List Char × Json))
    (hpat : hasTrailingCommaPattern (dumpsVal (Json.obj kvs)) = false) :
    safe_json_loads (wrap_fence (add_trailing_comma (dumpsVal (Json.obj kvs)))) =
      some (Json.obj kvs) := by
  set A := joinComma (kvs.map (fun kv => dumpStringLit kv.1 ++ ':' :: ' ' :: dumpsVal kv.2))
    with hA
  have hdump : dumpsVal (Json.obj kvs) = ('{' :: A) ++ ['}'] := by
    rw [dumpsVal_obj, ← hA, List.cons_append]
  have hatc : add_trailing_comma (dumpsVal (Json.obj kvs)) = ('{' :: A) ++ [',', '}'] := by
    rw [add_trailing_comma, hdump, List.dropLast_concat]
  rw [hatc, safe_json_loads]
  have h1 : loads (wrap_fence (('{' :: A) ++ [',', '}'])) = none := loads_backtick _
  rw [h1]
  have hstrip : strip_code_fences (wrap_fence (('{' :: A) ++ [',', '}'])) =
      ('{' :: A) ++ [',', '}'] := by
    rw [strip_code_fences, wrap_fence, List.append_assoc, stripLeadingFence_wrap]
    have e1 : '\n' :: ((('{' :: A) ++ [',', '}']) ++ "\n```".data) =
        ('\n' :: (('{' :: A) ++ [',', '}'])) ++ '\n' :: '`' :: '`' :: '`' :: [] := by
      simp
    rw [e1, stripTrailingFence_append]
    have e2 : ('\n' :: (('{' :: A) ++ [',', '}'])) ++ ['\n'] =
        '\n' :: ('{' :: ((A ++ [',']) ++ ['}']) ++ ['\n']) := by
      simp
    rw [e2, pyStripL_sandwich]
    simp
  rw [hstrip]
  have hins : ∀ c ∈ ('{' :: A) ++ [',', '}'], c ≠ '\n' ∧ c ≠ '\r' := by
    intro c hc
    rcases List.mem_append.1 hc with h | h
    · exact dumps_no_nl (Json.obj kvs) c (by rw [hdump]; exact List.mem_append.2 (Or.inl h))
    · rcases List.mem_cons.1 h with rfl | h2
      · exact ⟨by decide, by decide⟩
      simp only [List.mem_singleton] at h2
      subst h2
      exact ⟨by decide, by decide⟩
  rw [show escape_newlines_in_strings (('{' :: A) ++ [',', '}']) = ('{' :: A) ++ [',', '}']
    from escapeNlGo_id _ false false hins]
  have hrem : remove_trailing_commas (('{' :: A) ++ [',', '}']) = ('{' :: A) ++ ['}'] := by
    rw [remove_trailing_commas]
    refine rtc_insert ('{' :: A) _ (by simp) ?_
    rw [← hdump]
    exact hpat
  rw [hrem, ← hdump]
  simp only [loads_dumps]

/-- **C4 (counterexample).**  For the object `{"k": ",}"}` the repair
pipeline returns `{"k": "}"}`: the trailing-comma regex fires inside the
string literal, so the round trip does not restore the original object. -/
theorem C4_counterexample :
    ∃ kvs : List (List Char × Json),
      safe_json_loads (wrap_fence (add_trailing_comma (dumpsVal (Json.obj kvs)))) ≠
        some (Json.obj kvs) := by
  refine ⟨[("k".data, Json.str [',', '\x7d'])], ?_⟩
  have hd : dumpsVal (Json.obj [("k".data, Json.str [',', '\x7d'])]) =
      ['\x7b', '"', 'k', '"', ':', ' ', '"', ',', '\x7d', '"', '\x7d'] := by
    simp [dumpsVal, joinComma, dumpStringLit, escChar]
    decide
  rw [hd]
  have h2 : safe_json_loads (wrap_fence (add_trailing_comma
        ['\x7b', '"', 'k', '"', ':', ' ', '"', ',', '\x7d', '"', '\x7d'])) =
      some (Json.obj [("k".data, Json.str ['\x7d'])]) := by rfl
  rw [h2]
  intro h
  simp only [Option.some.injEq, Json.obj.injEq, List.cons.injEq, Prod.mk.injEq,
    Json.str.injEq] at h
  have h3 := h.1.2
  simp [String.data] at h3

/-- Witness for `C4_repair_roundtrip` at the object `{"a": 1}`. -/
theorem C4_witness :
    hasTrailingCommaPattern (dumpsVal (Json.obj [("a".data, Json.num 1)])) = false ∧
    safe_json_loads (wrap_fence (add_trailing_comma
        (dumpsVal (Json.obj [("a".data, Json.num 1)])))) =
      some (Json.obj [("a".data, Json.num 1)]) := by
  have hd : dumpsVal (Json.obj [("a".data, Json.num 1)]) =
      ['\x7b', '"', 'a', '"', ':', ' ', '1', '\x7d'] := by
    simp [dumpsVal, joinComma, dumpStringLit, escChar, intDump, natDigits, natDigitsAux]
    decide
  have hpat : hasTrailingCommaPattern (dumpsVal (Json.obj [("a".data, Json.num 1)])) =
      false := by
    rw [hd]
    decide
  exact ⟨hpat, C4_repair_roundtrip _ hpat⟩

end AiService
